import Mathlib

/-!
Verification development for `cdragontoolbox/export.py`.

The Python module is shallowly embedded: path-manipulating functions become
Lean functions on `String` / `List String`, the nested-dict path trees of
`paths_to_tree` become the mutual inductive `PTree`/`PDict` (a Python dict
value `None` is `PTree.leaf`, a nested dict is `PTree.node`), and the
filesystem-touching methods of `PatchExporter` / `Exporter` become explicit
state-passing functions.  Fallible Python code (raised exceptions) is mapped
to `Option`/`Except`.
-/

/-! ### Python path splitting and joining

`pySplit` models Python `path.split('/')`, `pyJoin` models `'/'.join(parts)`.
`''.split('/') == ['']` in Python, which matches `List.splitOn` on `[]`.
-/

/-- Model of Python `s.split('/')`. -/
def pySplit (s : String) : List String :=
  (s.data.splitOn '/').map String.mk

/-- Model of Python `'/'.join(parts)`. -/
def pyJoin (parts : List String) : String :=
  String.mk (List.intercalate ['/'] (parts.map String.data))

/-- A well-formed path segment: non-empty and not containing a slash. -/
def wfSeg (s : String) : Prop := s ≠ "" ∧ '/' ∉ s.data

/-- A well-formed relative path: every slash-separated segment is non-empty
(no empty parts, no leading or trailing slashes), as required by the
docstring of `paths_to_tree`. -/
def wfPath (p : String) : Prop := ∀ s ∈ pySplit p, s ≠ ""

/-- `strictBelow b q = true` iff the segment chain `q` strictly extends the
segment chain `b` (the path `q` lies strictly below the directory `b`). -/
def strictBelow : List String → List String → Bool
  | [], [] => false
  | [], _ :: _ => true
  | _ :: _, [] => false
  | a :: as, b :: bs => a == b && strictBelow as bs

/-- No path of the list lies strictly below another path of the list when
both are read as `/`-separated segment chains (e.g. `a/b` below `a`).
File-path sets produced by the exporter have this shape: one cannot have
both a file `a` and a file `a/b`. -/
def NestFree (ps : List String) : Prop :=
  ∀ p ∈ ps, ∀ q ∈ ps, strictBelow (pySplit p) (pySplit q) = false

instance wfSegDec (s : String) : Decidable (wfSeg s) :=
  inferInstanceAs (Decidable (s ≠ "" ∧ '/' ∉ s.data))

instance wfPathDec (p : String) : Decidable (wfPath p) :=
  inferInstanceAs (Decidable (∀ s ∈ pySplit p, s ≠ ""))

instance nestFreeDec (ps : List String) : Decidable (NestFree ps) :=
  inferInstanceAs
    (Decidable (∀ p ∈ ps, ∀ q ∈ ps, strictBelow (pySplit p) (pySplit q) = false))

/-! ### Path trees

Python represents a tree of paths as nested dicts whose leaves are `None`
(see `paths_to_tree`).  `PTree.leaf` is the value `None`, `PTree.node d` a
dict; `PDict` is the insertion-ordered list of key/value pairs of a dict.
-/

mutual
inductive PTree : Type where
  | leaf : PTree
  | node : PDict → PTree
  deriving DecidableEq
inductive PDict : Type where
  | nil : PDict
  | cons : String → PTree → PDict → PDict
  deriving DecidableEq
end

/-- `d.get k`: Python `d.get(k)` / `d[k]` lookup (first matching key;
dicts built by the embedded code never have duplicate keys). -/
def PDict.get : PDict → String → Option PTree
  | .nil, _ => none
  | .cons k v rest, n => if k = n then some v else rest.get n

/-- `d.set k v`: Python `d[k] = v` — replace the value in place if the key
exists, otherwise append the new key at the end (insertion order). -/
def PDict.set : PDict → String → PTree → PDict
  | .nil, k, v => .cons k v .nil
  | .cons k' v' rest, k, v =>
      if k' = k then .cons k' v rest else .cons k' v' (rest.set k v)

/-- Python `len(d)`. -/
def PDict.size : PDict → Nat
  | .nil => 0
  | .cons _ _ rest => rest.size + 1

/-- Python `list(d)`: the keys of a dict, in insertion order. -/
def PDict.keys : PDict → List String
  | .nil => []
  | .cons k _ rest => k :: rest.keys

/-! ### `paths_to_tree` -/

/-- One iteration of the loop body of `paths_to_tree`: descend along
`parents` with `subtree.setdefault(parent, {})` and finally perform
`subtree[leaf] = None`.  Descending into a `None` value is a Python
`TypeError`, modelled by `none`. -/
def insertPath : PDict → List String → Option PDict
  | _, [] => none
  | d, [last] => some (d.set last .leaf)
  | d, seg :: rest =>
    match d.get seg with
    | none => (insertPath .nil rest).map (fun sub => d.set seg (.node sub))
    | some (.node sub) => (insertPath sub rest).map (fun sub' => d.set seg (.node sub'))
    | some .leaf => none

/-- `paths_to_tree(paths)`: reduce an iterable of paths into nested
mappings.  Returns `none` if an iteration raises (see `insertPath`). -/
def paths_to_tree (paths : List String) : Option PDict :=
  paths.foldlM (fun d p => insertPath d (pySplit p)) .nil

/-! ### `reduce_common_trees` / `reduce_common_paths` -/

mutual
/-- Python `==` on tree values (`None` or dict).  Dict equality compares
key sets and, per key, values — insertion order is irrelevant.  For
duplicate-free dicts this is `len(d1) == len(d2)` together with every
entry of `d1` matching in `d2`. -/
def treeEq : PTree → PTree → Bool
  | .leaf, .leaf => true
  | .node d1, .node d2 => d1.size == d2.size && dictLe d1 d2
  | _, _ => false
/-- Every entry `(k, v)` of the first dict has a counterpart `(k, w)` in the
second with `treeEq v w`. -/
def dictLe : PDict → PDict → Bool
  | .nil, _ => true
  | .cons k v rest, d2 =>
      (match d2.get k with
       | some w => treeEq v w
       | none => false) && dictLe rest d2
end

/-- `None if excludes is None else excludes.get(name)`: the recursive
`excludes` argument of `reduce_common_trees` is either Python `None` or a
dict — a stored `None` value (an excluded leaf) is returned by `.get` as
`None`, indistinguishable from an absent key. -/
def exGet : Option PDict → String → Option PDict
  | none, _ => none
  | some d, n =>
    match d.get n with
    | none => none
    | some .leaf => none
    | some (.node sub) => some sub

mutual
/-- `reduce_common_trees(parts, tree1, tree2, excludes)`: yield
`'/'.join(parts)` when `tree1` is a leaf, or when `tree1 == tree2` and
`excludes is None`; otherwise recurse into every child of `tree1`, pairing
it with `tree2[name]` (a `KeyError` / `TypeError`, i.e. `none`, when
`tree2` has no such entry).  The generator's output list is collected;
`none` models an exception escaping the generator. -/
def reduce_common_trees (parts : List String) (t1 t2 : PTree) (ex : Option PDict) :
    Option (List String) :=
  match t1 with
  | .leaf => some [pyJoin parts]
  | .node d1 =>
    if treeEq (.node d1) t2 && ex.isNone then some [pyJoin parts]
    else reduceChildren parts d1 t2 ex

/-- The `for name in tree1` loop of `reduce_common_trees`. -/
def reduceChildren (parts : List String) (d1 : PDict) (t2 : PTree) (ex : Option PDict) :
    Option (List String) :=
  match d1 with
  | .nil => some []
  | .cons n c rest =>
    match t2 with
    | .leaf => none
    | .node d2 =>
      match d2.get n with
      | none => none
      | some c2 =>
        match reduce_common_trees (parts ++ [n]) c c2 (exGet ex n) with
        | none => none
        | some rs1 =>
          match reduceChildren parts rest t2 ex with
          | none => none
          | some rs2 => some (rs1 ++ rs2)
end

/-- `reduce_common_paths(paths1, paths2, excludes)`.  Note that the
top-level call passes the `excludes` *dict* (possibly empty), never
Python `None`. -/
def reduce_common_paths (paths1 paths2 excludes : List String) : Option (List String) :=
  match paths_to_tree paths1 with
  | none => none
  | some tree1 =>
    match paths_to_tree paths2 with
    | none => none
    | some tree2 =>
      match paths_to_tree excludes with
      | none => none
      | some tree_excludes =>
        match reduce_common_trees [] (.node tree1) (.node tree2) (some tree_excludes) with
        | none => none
        | some ret =>
          if ret.length = 1 ∧ ret.headD "x" = "" then some tree1.keys
          else some ret

/-! ### Semantic helpers for the path trees

`treePaths`/`dictPaths` list the leaf paths of a tree as segment chains;
`WfTree`/`WfDict` capture the shape invariant of trees built by
`paths_to_tree` (no duplicate keys, well-formed segments as keys, no empty
interior dicts); `SubT`/`SubD` say that every entry chain of the first tree
exists in the second (the sense in which `tree1` "must be a subtree of
`tree2`" in `reduce_common_trees`). -/

mutual
/-- The leaf paths of a tree value, as lists of segments. -/
def treePaths : PTree → List (List String)
  | .leaf => [[]]
  | .node d => dictPaths d
/-- The leaf paths of a dict, as lists of segments. -/
def dictPaths : PDict → List (List String)
  | .nil => []
  | .cons k v rest => (treePaths v).map (k :: ·) ++ dictPaths rest
end

mutual
/-- Shape invariant of (sub)trees built by `paths_to_tree`: a dict value is
non-empty and well-formed. -/
inductive WfTree : PTree → Prop where
  | leaf : WfTree .leaf
  | node : ∀ d, d ≠ .nil → WfDict d → WfTree (.node d)
/-- Shape invariant of dicts built by `paths_to_tree`: keys are distinct
well-formed segments and values are well-formed. -/
inductive WfDict : PDict → Prop where
  | nil : WfDict .nil
  | cons : ∀ k v rest, wfSeg k → rest.get k = none → WfTree v → WfDict rest →
      WfDict (.cons k v rest)
end

mutual
/-- Every chain of the first tree exists in the second tree. -/
inductive SubT : PTree → PTree → Prop where
  | leaf : SubT .leaf .leaf
  | node : ∀ d1 d2, SubD d1 d2 → SubT (.node d1) (.node d2)
/-- Every entry of the first dict has a same-key entry in the second dict
with related value. -/
inductive SubD : PDict → PDict → Prop where
  | nil : ∀ d2, SubD .nil d2
  | cons : ∀ k v rest d2 w, d2.get k = some w → SubT v w → SubD rest d2 →
      SubD (.cons k v rest) d2
end

/-! ### `PatchExporter.export_storage_file` (claim C5)

Destination/storage file contents are abstracted as `Nat` tokens;
`destBytes = none` means no file exists at `output_path`. -/

/-- `export_storage_file(storage_path, export_path, overwrite)`:
`if overwrite and os.path.exists(output_path): return`, otherwise
`shutil.copyfile` the storage bytes over the output path.  The result is
the content of the output path after the call. -/
def export_storage_file (overwrite : Bool) (destBytes : Option Nat) (srcBytes : Nat) :
    Option Nat :=
  if overwrite && destBytes.isSome then destBytes else some srcBytes

/-! ### End of `PatchExporter.export` (claim C6) -/

/-- How a run of `PatchExporter.export` ends, after the per-project loop
has accumulated `previous_links` and `extracted_paths`. -/
inductive ExportEnd where
  | errorDuplicates : ExportEnd
  | errorRaise : ExportEnd
  | done : Option (List String) → ExportEnd
  deriving DecidableEq

/-- The tail of `PatchExporter.export` (lines 278-295): when a previous
patch exists, fail with `RuntimeError("duplicate files: ...")` if some path
was both linked and extracted, otherwise set `self.previous_links` to the
reduction of the linked paths over the previous patch's full file list.
`errorRaise` models any other exception escaping `reduce_common_paths`.
Without a previous patch, `self.previous_links` keeps its initial `None`. -/
def exportFinish (hasPreviousPatch : Bool)
    (previous_links extracted_paths previous_files : List String) : ExportEnd :=
  if hasPreviousPatch then
    if previous_links.any (fun p => extracted_paths.contains p) then .errorDuplicates
    else
      match reduce_common_paths previous_links previous_files extracted_paths with
      | none => .errorRaise
      | some links => .done (some links)
  else .done none

/-! ### WAD member comparison (claim C9) -/

/-- A WAD archive member: a resolved path, the hash of its path and the
hash of its content (hash values abstracted as `Nat`). -/
structure WadFile where
  path : String
  path_hash : Nat
  sha256 : Nat
  deriving DecidableEq

/-- Lookup in an association list (Python `dict.get`). -/
def alistGet : List (Nat × Nat) → Nat → Option Nat
  | [], _ => none
  | (k, v) :: rest, n => if k = n then some v else alistGet rest n

/-- Python `d[k] = v` on an association list. -/
def alistSet : List (Nat × Nat) → Nat → Nat → List (Nat × Nat)
  | [], k, v => [(k, v)]
  | (k', v') :: rest, k, v =>
      if k' = k then (k', v) :: rest else (k', v') :: alistSet rest k v

/-- `prev_sha256 = {wf.path_hash: wf.sha256 for wf in prev_wad.files}` —
a dict comprehension, later entries overriding earlier ones. -/
def prev_sha256 (prevFiles : List WadFile) : List (Nat × Nat) :=
  prevFiles.foldl (fun d wf => alistSet d wf.path_hash wf.sha256) []

/-- The member-comparison loop of `PatchExporter.export` for a modified
WAD with a previous counterpart (lines 231-239): a member whose `sha256`
equals `prev_sha256.get(wf.path_hash)` is appended to `previous_links`,
any other member is kept in `wadfiles_to_extract`.  Returns the pair
(paths added to `previous_links`, `wadfiles_to_extract`). -/
def wadCompare : List WadFile → List (Nat × Nat) → List String × List WadFile
  | [], _ => ([], [])
  | wf :: rest, prevSha =>
    if alistGet prevSha wf.path_hash = some wf.sha256 then
      (wf.path :: (wadCompare rest prevSha).1, (wadCompare rest prevSha).2)
    else
      ((wadCompare rest prevSha).1, wf :: (wadCompare rest prevSha).2)

/-! ### `Exporter.__init__` / `Exporter.create_symlinks` (claims C8, C10)

Patch versions are abstracted as naturals ordered by recency (`a < b`
means `a` is older).  Modelled from the spec: `PatchVersion.versions`
(module `cdragontoolbox.storage`, outside the analysed source) "exposes an
ordered sequence of patches by recency" — the `catalog` argument below is
that newest-first sequence. -/

/-- The matching loop of `Exporter.__init__` (lines 119-127): walk the
catalog, collect the patches whose version was discovered, removing each
found version, break once every version is matched; raise
(`ValueError("versions not found: ...")`, i.e. `none`) if the catalog
is exhausted first. -/
def collectPatches : List Nat → List Nat → Option (List Nat)
  | [], _ => none
  | c :: cs, vs =>
    if c ∈ vs then
      let vs' := vs.erase c
      if vs' = [] then some [c]
      else
        match collectPatches cs vs' with
        | none => none
        | some ps => some (c :: ps)
    else collectPatches cs vs

/-- The two `ValueError`s of `Exporter.__init__`. -/
inductive InitError where
  | noVersionDirectory : InitError
  | versionsNotFound : InitError
  deriving DecidableEq

/-- `Exporter.__init__`: discover version directories among the children
of the output directory (`entries` models `os.listdir(output)` tagged with
`os.path.isdir`; `parse` models the external `Version(path)` constructor,
`none` meaning `ValueError`/`TypeError`, which is skipped), raise
`ValueError("no version directory found")` if nothing was discovered, then
match the discovered versions against the newest-first catalog.  Returns
the patch chain in catalog (newest-first) order, which is also the order
of `self.exporters`. -/
def exporterInit (parse : String → Option Nat) (entries : List (String × Bool))
    (catalog : List Nat) : Except InitError (List Nat) :=
  let versions := (entries.filter (fun e => e.2)).filterMap (fun e => parse e.1)
  if versions = [] then .error .noVersionDirectory
  else
    match collectPatches catalog versions.eraseDups with
    | none => .error .versionsNotFound
    | some patches => .ok patches

/-- `Exporter.create_symlinks`: `for exporter in self.exporters[::-1]` —
the per-patch `PatchExporter.create_symlinks` calls happen in reverse
chain order.  Returns the patch versions in processing order. -/
def exporterSymlinkOrder (patches : List Nat) : List Nat := patches.reverse

/-! ### Stale-file cleanup of `PatchExporter.export` (claim C4)

The output directory is modelled relative to its root: a path is its list
of `/`-separated segments; `files` and `dirs` list the files and
directories currently present (the root itself is not an element). -/

/-- Filesystem state under the output directory. -/
structure FsState where
  files : List (List String)
  dirs : List (List String)
  deriving DecidableEq

/-- Whether directory `d` is non-empty: some file or directory lies
strictly below it. -/
def dirHasContent (s : FsState) (d : List String) : Bool :=
  s.files.any (fun f => strictBelow d f) || s.dirs.any (fun e => strictBelow d e)

/-- `os.removedirs` walking upward, on reversed segment lists: remove the
directory if it exists and is empty, then try its parent; stop at the
first failure (`OSError`s are swallowed by the `try`/`except` around the
call).  The output root (empty segment list) is never removed. -/
def removedirsRev (s : FsState) : List String → FsState
  | [] => s
  | seg :: up =>
    let d := (seg :: up).reverse
    if s.dirs.contains d && !dirHasContent s d then
      removedirsRev { s with dirs := s.dirs.erase d } up
    else s

/-- `try: os.removedirs(path) except OSError: pass` for a directory given
by its segments. -/
def removedirsTry (s : FsState) (d : List String) : FsState :=
  removedirsRev s d.reverse

/-- Lines 265-276 of `export.py`: delete every file of
`original_exported_files - set(extracted_paths)`, then try to remove the
directories that held a deleted file (and, walking up, their parents)
while empty.  `original` is the pre-run file walk, `extracted` the set of
extracted paths, `s` the filesystem state when the pass starts. -/
def removeExtraFiles (original extracted : List (List String)) (s : FsState) : FsState :=
  let toRemove := original.filter (fun p => !extracted.contains p)
  let s1 : FsState := { s with files := s.files.filter (fun f => !toRemove.contains f) }
  let dirsToRemove := (toRemove.map (fun p => p.dropLast)).eraseDups
  dirsToRemove.foldl removedirsTry s1

/-! ### `PatchExporter.create_symlinks` (claim C7) -/

/-- What occupies a link's destination path before the call.
`os.path.exists` follows links, so a dangling (`brokenLink`) entry reports
as non-existing while still occupying the path for `os.symlink`. -/
inductive DstState where
  | absent : DstState
  | plainFile : DstState
  | liveLink : DstState
  | brokenLink : DstState
  deriving DecidableEq

/-- `os.path.exists` (follows links). -/
def pathExists : DstState → Bool
  | .plainFile => true
  | .liveLink => true
  | _ => false

/-- `os.path.islink`. -/
def pathIslink : DstState → Bool
  | .liveLink => true
  | .brokenLink => true
  | _ => false

/-- The two failures of `PatchExporter.create_symlinks`:
`RuntimeError("symlink target already exists: ...")` for non-link content,
and the `FileExistsError` that `os.symlink` raises when a filesystem entry
(such as a dangling link) already occupies the destination. -/
inductive LinkError where
  | targetExists : List String → LinkError
  | fileExists : List String → LinkError
  deriving DecidableEq

/-- Length of the common leading segment run of two paths. -/
def commonLen : List String → List String → Nat
  | a :: as, b :: bs => if a = b then commonLen as bs + 1 else 0
  | _, _ => 0

/-- Model of `os.path.relpath(path, start)` on normalized relative paths
given as segment lists. -/
def pyRelpathSegs (path start : List String) : List String :=
  let i := commonLen path start
  List.replicate (start.length - i) ".." ++ path.drop i

/-- Resolve a relative link target from its holding directory: `..` pops
one segment, any other segment descends.  Models what the created link
points at. -/
def resolveRel : List String → List String → List String
  | base, [] => base
  | base, s :: rest =>
      if s = ".." then resolveRel base.dropLast rest else resolveRel (base ++ [s]) rest

/-- The manifest loop of `PatchExporter.create_symlinks`: for each entry,
if the destination exists (following links) it must already be a link —
otherwise `RuntimeError`; when nothing is reported at the destination,
`os.makedirs(dst_dir)` then `os.symlink(relpath(realpath(src), dst_dir),
dst)` — which raises `FileExistsError` if a dangling link occupies `dst`.
`os.path.realpath` is modelled as the identity (no pre-existing link
chains inside the previous patch's directory, already-normalized paths);
`st` gives the pre-existing entry at each destination path (the manifest's
entries are distinct, so the loop never revisits a destination it
created).  Returns the `(dst, link target)` pairs created. -/
def createSymlinksGo (dstOutput srcOutput : List String) (links : List String)
    (st : List String → DstState) :
    Except LinkError (List (List String × List String)) :=
  match links with
  | [] => .ok []
  | link :: rest =>
    let dst := dstOutput ++ pySplit link
    if pathExists (st dst) then
      if !pathIslink (st dst) then .error (.targetExists dst)
      else createSymlinksGo dstOutput srcOutput rest st
    else
      match st dst with
      | .brokenLink => .error (.fileExists dst)
      | _ =>
        match createSymlinksGo dstOutput srcOutput rest st with
        | .error e => .error e
        | .ok created =>
            .ok ((dst, pyRelpathSegs (srcOutput ++ pySplit link) dst.dropLast) :: created)

/-- `PatchExporter.create_symlinks`: returns immediately when
`self.previous_links is None`. -/
def create_symlinks (dstOutput srcOutput : List String)
    (previous_links : Option (List String)) (st : List String → DstState) :
    Except LinkError (List (List String × List String)) :=
  match previous_links with
  | none => .ok []
  | some links => createSymlinksGo dstOutput srcOutput links st

/-! ## Theorems -/

/-! ### String and segment toolkit -/

theorem String.data_mk' (l : List Char) : (String.mk l).data = l := rfl

theorem String.mk_data' (s : String) : String.mk s.data = s := rfl

theorem string_ne_empty_iff (s : String) : s ≠ "" ↔ s.data ≠ [] := by
  constructor
  · intro h hd
    exact h (by cases s with | mk d => cases hd; rfl)
  · intro h he
    exact h (by rw [he])

theorem splitOnP_sep_not_mem {α} (p : α → Bool) (L : List α) :
    ∀ l ∈ L.splitOnP p, ∀ x ∈ l, ¬ p x := by
  induction L with
  | nil =>
      intro l hl x hx
      rw [List.splitOnP_nil] at hl
      simp only [List.mem_singleton] at hl
      subst hl
      cases hx
  | cons a t ih =>
      intro l hl x hx
      rw [List.splitOnP_cons] at hl
      by_cases hpa : p a
      · rw [if_pos hpa] at hl
        rcases List.mem_cons.mp hl with h | h
        · subst h; cases hx
        · exact ih l h x hx
      · rw [if_neg hpa] at hl
        rcases h' : t.splitOnP p with _ | ⟨hd, tl⟩
        · exact absurd h' (List.splitOnP_ne_nil p t)
        · rw [h'] at hl
          simp only [List.modifyHead] at hl
          rcases List.mem_cons.mp hl with h | h
          · subst h
            rcases List.mem_cons.mp hx with h | h
            · subst h; exact hpa
            · exact ih hd (h' ▸ List.mem_cons_self hd tl) x h
          · exact ih l (h' ▸ List.mem_cons_of_mem hd h) x hx

theorem pySplit_ne_nil (s : String) : pySplit s ≠ [] := by
  intro h
  rw [pySplit, List.map_eq_nil_iff, List.splitOn] at h
  exact List.splitOnP_ne_nil _ _ h

theorem pySplit_no_slash (s : String) : ∀ x ∈ pySplit s, '/' ∉ x.data := by
  intro x hx
  rw [pySplit] at hx
  rcases List.mem_map.mp hx with ⟨l, hl, hlx⟩
  subst hlx
  rw [String.data_mk']
  intro hmem
  exact splitOnP_sep_not_mem _ _ l hl '/' hmem rfl

theorem pyJoin_pySplit (s : String) : pyJoin (pySplit s) = s := by
  rw [pyJoin, pySplit, List.map_map]
  have : (String.data ∘ String.mk) = id := funext fun l => rfl
  rw [this, List.map_id]
  rw [show List.intercalate ['/'] (s.data.splitOn '/') = s.data from
    List.intercalate_splitOn s.data '/']

theorem pySplit_pyJoin (ps : List String) (h : ps ≠ [])
    (h2 : ∀ x ∈ ps, '/' ∉ x.data) : pySplit (pyJoin ps) = ps := by
  rw [pyJoin, pySplit, String.data_mk']
  rw [List.splitOn_intercalate (ps.map String.data) '/'
      (by
        intro l hl
        rcases List.mem_map.mp hl with ⟨x, hx, hxl⟩
        subst hxl
        exact h2 x hx)
      (by simpa using h)]
  rw [List.map_map]
  have : (String.mk ∘ String.data) = id := funext fun x => rfl
  rw [this, List.map_id]

theorem pySplit_inj {a b : String} (h : pySplit a = pySplit b) : a = b := by
  have := pyJoin_pySplit a
  rw [h, pyJoin_pySplit b] at this
  exact this.symm

theorem pyJoin_single (s : String) : pyJoin [s] = s := by
  rw [pyJoin]
  simp only [List.map_cons, List.map_nil, List.intercalate, List.intersperse_singleton,
    List.flatten, List.append_nil]

theorem pyJoin_ne_empty (a : String) (rest : List String) (ha : a ≠ "") :
    pyJoin (a :: rest) ≠ "" := by
  rw [string_ne_empty_iff] at ha ⊢
  rw [pyJoin, String.data_mk']
  cases rest with
  | nil =>
      simpa [List.intercalate] using ha
  | cons b t =>
      simp only [List.map_cons, List.intercalate, List.intersperse_cons_cons, List.flatten]
      intro h
      exact absurd (List.append_eq_nil.mp h).2 (by simp)

theorem strictBelow_iff (b q : List String) :
    strictBelow b q = true ↔ ∃ t, t ≠ [] ∧ q = b ++ t := by
  induction b generalizing q with
  | nil =>
      cases q with
      | nil => simp [strictBelow]
      | cons c cs =>
          simp only [strictBelow, List.nil_append, true_iff]
          exact ⟨c :: cs, by simp, rfl⟩
  | cons a as ih =>
      cases q with
      | nil => simp [strictBelow]
      | cons c cs =>
          rw [strictBelow]
          simp only [Bool.and_eq_true, beq_iff_eq, ih]
          constructor
          · rintro ⟨rfl, t, ht, rfl⟩
            exact ⟨t, ht, rfl⟩
          · rintro ⟨t, ht, hq⟩
            rw [List.cons_append] at hq
            cases hq
            exact ⟨rfl, t, ht, rfl⟩

/-! ### PDict toolkit -/

theorem ptree_ind (P : PTree → Prop) (Q : PDict → Prop)
    (h1 : P .leaf) (h2 : ∀ d, Q d → P (.node d)) (h3 : Q .nil)
    (h4 : ∀ k v rest, P v → Q rest → Q (.cons k v rest)) :
    (∀ t, P t) ∧ (∀ d, Q d) :=
  ⟨fun t => PTree.rec h1 h2 h3 (fun k v rest hv hr => h4 k v rest hv hr) t,
   fun d => PDict.rec h1 h2 h3 (fun k v rest hv hr => h4 k v rest hv hr) d⟩

theorem PDict.get_none_iff (d : PDict) (k : String) :
    d.get k = none ↔ k ∉ d.keys := by
  induction d using PDict.rec (motive_1 := fun _ => True) with
  | leaf => trivial
  | node _ _ => trivial
  | nil => simp [PDict.get, PDict.keys]
  | cons k' v rest _ ih =>
      rw [PDict.get, PDict.keys]
      by_cases h : k' = k
      · subst h; simp
      · simp only [if_neg h, ih, List.mem_cons]
        constructor
        · intro hn hc
          rcases hc with hc | hc
          · exact h hc.symm
          · exact hn hc
        · intro hn
          exact fun hc => hn (Or.inr hc)

theorem PDict.get_some_mem_keys {d : PDict} {k : String} {v : PTree}
    (h : d.get k = some v) : k ∈ d.keys := by
  by_contra hn
  rw [← PDict.get_none_iff] at hn
  rw [hn] at h
  cases h

theorem PDict.keys_length (d : PDict) : d.keys.length = d.size := by
  induction d using PDict.rec (motive_1 := fun _ => True) with
  | leaf => trivial
  | node _ _ => trivial
  | nil => rfl
  | cons k v rest _ ih => rw [PDict.keys, PDict.size, List.length_cons, ih]

theorem PDict.get_set_self (d : PDict) (k : String) (v : PTree) :
    (d.set k v).get k = some v := by
  induction d using PDict.rec (motive_1 := fun _ => True) with
  | leaf => trivial
  | node _ _ => trivial
  | nil => simp [PDict.set, PDict.get]
  | cons k' v' rest _ ih =>
      rw [PDict.set]
      by_cases h : k' = k
      · rw [if_pos h, PDict.get, if_pos h]
      · rw [if_neg h, PDict.get, if_neg h]
        exact ih

theorem PDict.get_set_ne (d : PDict) (k n : String) (v : PTree) (h : n ≠ k) :
    (d.set k v).get n = d.get n := by
  induction d using PDict.rec (motive_1 := fun _ => True) with
  | leaf => trivial
  | node _ _ => trivial
  | nil => simp [PDict.set, PDict.get, Ne.symm h]
  | cons k' v' rest _ ih =>
      rw [PDict.set]
      by_cases hk : k' = k
      · subst hk
        rw [if_pos rfl, PDict.get, PDict.get, if_neg (fun hc => h hc.symm),
          if_neg (fun hc => h hc.symm)]
      · rw [if_neg hk, PDict.get, PDict.get]
        by_cases hn : k' = n
        · rw [if_pos hn, if_pos hn]
        · rw [if_neg hn, if_neg hn]
          exact ih

theorem PDict.keys_set (d : PDict) (k : String) (v : PTree) :
    (d.set k v).keys = if k ∈ d.keys then d.keys else d.keys ++ [k] := by
  induction d using PDict.rec (motive_1 := fun _ => True) with
  | leaf => trivial
  | node _ _ => trivial
  | nil => simp [PDict.set, PDict.keys]
  | cons k' v' rest _ ih =>
      rw [PDict.set]
      by_cases h : k' = k
      · subst h
        simp [PDict.keys]
      · rw [if_neg h, PDict.keys, PDict.keys, ih]
        by_cases hm : k ∈ rest.keys
        · rw [if_pos hm, if_pos (by simp [hm])]
        · rw [if_neg hm,
            if_neg (by
              simp only [List.mem_cons]
              rintro (hc | hc)
              · exact h hc.symm
              · exact hm hc),
            List.cons_append]

theorem mem_dictPaths_cons (k : String) (v : PTree) (rest : PDict) (q : List String) :
    q ∈ dictPaths (.cons k v rest) ↔
      (∃ q', q = k :: q' ∧ q' ∈ treePaths v) ∨ q ∈ dictPaths rest := by
  rw [dictPaths]
  simp only [List.mem_append, List.mem_map]
  constructor
  · rintro (⟨q', hq', rfl⟩ | h)
    · exact Or.inl ⟨q', rfl, hq'⟩
    · exact Or.inr h
  · rintro (⟨q', rfl, hq'⟩ | h)
    · exact Or.inl ⟨q', hq', rfl⟩
    · exact Or.inr h

theorem dictPaths_ne_nil_elem : ∀ (d : PDict), ∀ q ∈ dictPaths d, q ≠ []
  | .nil => by simp [dictPaths]
  | .cons k v rest => by
      intro q hq
      rcases (mem_dictPaths_cons k v rest q).mp hq with ⟨q', rfl, _⟩ | h
      · simp
      · exact dictPaths_ne_nil_elem rest q h

theorem WfDict.get_wfTree : ∀ {d : PDict} {k : String} {v : PTree},
    WfDict d → d.get k = some v → WfTree v := by
  intro d
  induction d using PDict.rec (motive_1 := fun _ => True) with
  | leaf => trivial
  | node _ _ => trivial
  | nil => intro k v _ h; cases h
  | cons k' v' rest _ ih =>
      intro k v hwf h
      rw [PDict.get] at h
      cases hwf with
      | cons _ _ _ hseg hget hv hrest =>
          by_cases hk : k' = k
          · rw [if_pos hk] at h
            cases h
            exact hv
          · rw [if_neg hk] at h
            exact ih hrest h

theorem WfDict.keys_nodup : ∀ {d : PDict}, WfDict d → d.keys.Nodup := by
  intro d
  induction d using PDict.rec (motive_1 := fun _ => True) with
  | leaf => trivial
  | node _ _ => trivial
  | nil => intro _; simp [PDict.keys]
  | cons k v rest _ ih =>
      intro hwf
      cases hwf with
      | cons _ _ _ hseg hget hv hrest =>
          rw [PDict.keys, List.nodup_cons]
          exact ⟨(PDict.get_none_iff rest k).mp hget, ih hrest⟩

theorem WfDict.keys_wfSeg : ∀ {d : PDict}, WfDict d → ∀ k ∈ d.keys, wfSeg k := by
  intro d
  induction d using PDict.rec (motive_1 := fun _ => True) with
  | leaf => trivial
  | node _ _ => trivial
  | nil => intro _ k hk; cases hk
  | cons k' v rest _ ih =>
      intro hwf k hk
      cases hwf with
      | cons _ _ _ hseg hget hv hrest =>
          rw [PDict.keys] at hk
          rcases List.mem_cons.mp hk with h | h
          · exact h ▸ hseg
          · exact ih hrest k h

theorem PDict.get_of_mem_keys : ∀ {d : PDict} {k : String},
    k ∈ d.keys → ∃ v, d.get k = some v := by
  intro d
  induction d using PDict.rec (motive_1 := fun _ => True) with
  | leaf => trivial
  | node _ _ => trivial
  | nil => intro k hk; cases hk
  | cons k' v' rest _ ih =>
      intro k hk
      rw [PDict.get]
      by_cases h : k' = k
      · exact ⟨v', if_pos h⟩
      · rw [if_neg h]
        rcases List.mem_cons.mp hk with hc | hc
        · exact absurd hc.symm h
        · exact ih hc

/-! ### Non-emptiness and well-formedness of tree paths -/

mutual
theorem treePaths_nonempty : ∀ {t : PTree}, WfTree t → treePaths t ≠ []
  | .leaf, _ => by simp [treePaths]
  | .node d, h => by
      cases h with
      | node _ hne hwf =>
          rw [treePaths]
          exact dictPaths_nonempty hwf hne
theorem dictPaths_nonempty : ∀ {d : PDict}, WfDict d → d ≠ .nil → dictPaths d ≠ []
  | .nil, _, hne => absurd rfl hne
  | .cons k v rest, h, _ => by
      cases h with
      | cons _ _ _ hseg hget hv hrest =>
          rw [dictPaths]
          intro hemp
          rcases List.append_eq_nil.mp hemp with ⟨h1, _⟩
          exact treePaths_nonempty hv (List.map_eq_nil_iff.mp h1)
end

mutual
theorem treePaths_wfSegs : ∀ {t : PTree}, WfTree t → ∀ q ∈ treePaths t, ∀ s ∈ q, wfSeg s
  | .leaf, _ => by simp [treePaths]
  | .node d, h => by
      cases h with
      | node _ hne hwf =>
          rw [treePaths]
          exact dictPaths_wfSegs hwf
theorem dictPaths_wfSegs : ∀ {d : PDict}, WfDict d → ∀ q ∈ dictPaths d, ∀ s ∈ q, wfSeg s
  | .nil, _ => by simp [dictPaths]
  | .cons k v rest, h => by
      cases h with
      | cons _ _ _ hseg hget hv hrest =>
          intro q hq s hs
          rcases (mem_dictPaths_cons k v rest q).mp hq with ⟨q', rfl, hq'⟩ | hr
          · rcases List.mem_cons.mp hs with rfl | hs'
            · exact hseg
            · exact treePaths_wfSegs hv q' hq' s hs'
          · exact dictPaths_wfSegs hrest q hr s hs
end

theorem PDict.get_cons_of_rest {k' : String} {v' : PTree} {rest : PDict}
    (hwf : WfDict (.cons k' v' rest)) {k : String} {w : PTree}
    (h : rest.get k = some w) : (PDict.cons k' v' rest).get k = some w := by
  cases hwf with
  | cons _ _ _ hseg hget hv hrest =>
      rw [PDict.get]
      by_cases hk : k' = k
      · subst hk
        rw [hget] at h
        cases h
      · rw [if_neg hk]
        exact h

theorem mem_dictPaths_get : ∀ {d : PDict}, WfDict d → ∀ q : List String,
    (q ∈ dictPaths d ↔ ∃ n c q', q = n :: q' ∧ d.get n = some c ∧ q' ∈ treePaths c) := by
  intro d
  induction d using PDict.rec (motive_1 := fun _ => True) with
  | leaf => trivial
  | node _ _ => trivial
  | nil =>
      intro _ q
      simp [dictPaths, PDict.get]
  | cons k v rest _ ih =>
      intro hwf q
      have hrest : WfDict rest := by cases hwf with | cons _ _ _ _ _ _ h => exact h
      rw [mem_dictPaths_cons]
      constructor
      · rintro (⟨q', rfl, hq'⟩ | hr)
        · exact ⟨k, v, q', rfl, by rw [PDict.get, if_pos rfl], hq'⟩
        · rcases (ih hrest q).mp hr with ⟨n, c, q', rfl, hget, hq'⟩
          exact ⟨n, c, q', rfl, PDict.get_cons_of_rest hwf hget, hq'⟩
      · rintro ⟨n, c, q', rfl, hget, hq'⟩
        rw [PDict.get] at hget
        by_cases hk : k = n
        · rw [if_pos hk] at hget
          cases hget
          subst hk
          exact Or.inl ⟨q', rfl, hq'⟩
        · rw [if_neg hk] at hget
          exact Or.inr ((ih hrest _).mpr ⟨n, c, q', rfl, hget, hq'⟩)

theorem mem_keys_iff_heads {d : PDict} (hwf : WfDict d) (n : String) :
    n ∈ d.keys ↔ ∃ q', n :: q' ∈ dictPaths d := by
  constructor
  · intro hk
    rcases PDict.get_of_mem_keys hk with ⟨v, hget⟩
    have hv : WfTree v := WfDict.get_wfTree hwf hget
    rcases List.exists_mem_of_ne_nil _ (treePaths_nonempty hv) with ⟨q', hq'⟩
    exact ⟨q', (mem_dictPaths_get hwf _).mpr ⟨n, v, q', rfl, hget, hq'⟩⟩
  · rintro ⟨q', hq⟩
    rcases (mem_dictPaths_get hwf _).mp hq with ⟨n', c, q'', heq, hget, _⟩
    cases heq
    exact PDict.get_some_mem_keys hget

/-! ### Semantics of Python dict equality (`treeEq`) -/

theorem dictLe_sound : ∀ {d1 d2 : PDict}, dictLe d1 d2 = true →
    ∀ {k : String} {v : PTree}, d1.get k = some v →
      ∃ w, d2.get k = some w ∧ treeEq v w = true := by
  intro d1
  induction d1 using PDict.rec (motive_1 := fun _ => True) with
  | leaf => trivial
  | node _ _ => trivial
  | nil => intro d2 _ k v h; cases h
  | cons k' v' rest _ ih =>
      intro d2 hle k v hget
      rcases hm : d2.get k' with _ | w
      · simp only [dictLe, hm, Bool.false_and] at hle
        exact absurd hle (by decide)
      · simp only [dictLe, hm, Bool.and_eq_true] at hle
        rw [PDict.get] at hget
        by_cases hk : k' = k
        · rw [if_pos hk] at hget
          cases hget
          exact ⟨w, hk ▸ hm, hle.1⟩
        · rw [if_neg hk] at hget
          exact ih hle.2 hget

theorem dictLe_keys_sub {d1 d2 : PDict} (h : dictLe d1 d2 = true) :
    ∀ k ∈ d1.keys, k ∈ d2.keys := by
  intro k hk
  rcases PDict.get_of_mem_keys hk with ⟨v, hget⟩
  rcases dictLe_sound h hget with ⟨w, hgw, _⟩
  exact PDict.get_some_mem_keys hgw

theorem keys_sub_rev {l1 l2 : List String} (h1 : l1.Nodup) (h2 : l2.Nodup)
    (hsub : ∀ k ∈ l1, k ∈ l2) (hlen : l1.length = l2.length) :
    ∀ k ∈ l2, k ∈ l1 := by
  have hfin : l1.toFinset ⊆ l2.toFinset := by
    intro x hx
    exact List.mem_toFinset.mpr (hsub x (List.mem_toFinset.mp hx))
  have hcard : l2.toFinset.card ≤ l1.toFinset.card := by
    rw [List.toFinset_card_of_nodup h1, List.toFinset_card_of_nodup h2, hlen]
  have heq := Finset.eq_of_subset_of_card_le hfin hcard
  intro k hk
  exact List.mem_toFinset.mp (heq ▸ List.mem_toFinset.mpr hk)

mutual
theorem treeEq_sym : ∀ {t1 t2 : PTree}, WfTree t1 → WfTree t2 →
    treeEq t1 t2 = true → treeEq t2 t1 = true
  | t1, .leaf, _, _, heq => by
      cases t1 with
      | leaf => exact heq
      | node d1 =>
          simp only [treeEq] at heq
          exact absurd heq (by decide)
  | t1, .node d2, h1, h2, heq => by
      cases t1 with
      | leaf =>
          simp only [treeEq] at heq
          exact absurd heq (by decide)
      | node d1 =>
          simp only [treeEq, Bool.and_eq_true, beq_iff_eq] at heq ⊢
          rcases heq with ⟨hsz, hle⟩
          cases h1 with
          | node _ hne1 hwf1 =>
              cases h2 with
              | node _ hne2 hwf2 =>
                  refine ⟨hsz.symm, ?_⟩
                  have hkeys : ∀ k ∈ d2.keys, k ∈ d1.keys :=
                    keys_sub_rev hwf1.keys_nodup hwf2.keys_nodup (dictLe_keys_sub hle)
                      (by rw [PDict.keys_length, PDict.keys_length, hsz])
                  refine dictLe_sym hwf2 ?_
                  intro k w hget
                  rcases PDict.get_of_mem_keys (hkeys k (PDict.get_some_mem_keys hget))
                    with ⟨v, hgv⟩
                  rcases dictLe_sound hle hgv with ⟨w', hgw', heq'⟩
                  rw [hget] at hgw'
                  cases hgw'
                  exact ⟨v, hgv, heq', WfDict.get_wfTree hwf1 hgv, WfDict.get_wfTree hwf2 hget⟩
theorem dictLe_sym : ∀ {dsuf : PDict} {d1 : PDict}, WfDict dsuf →
    (∀ k w, dsuf.get k = some w →
      ∃ v, d1.get k = some v ∧ treeEq v w = true ∧ WfTree v ∧ WfTree w) →
    dictLe dsuf d1 = true
  | .nil, _, _, _ => rfl
  | .cons k w rest, d1, hwf, hprem => by
      cases hwf with
      | cons _ _ _ hseg hget hv hrest =>
          rcases hprem k w (by rw [PDict.get, if_pos rfl]) with ⟨v, hgv, heqvw, hwfv, hwfw⟩
          simp only [dictLe, hgv, Bool.and_eq_true]
          constructor
          · exact treeEq_sym hwfv hwfw heqvw
          · exact dictLe_sym hrest (fun k' w' hg' =>
              hprem k' w' (PDict.get_cons_of_rest (WfDict.cons k w rest hseg hget hv hrest) hg'))
end

mutual
theorem treeEq_paths_sub : ∀ {t1 t2 : PTree}, WfTree t1 → WfTree t2 →
    treeEq t1 t2 = true → ∀ q ∈ treePaths t1, q ∈ treePaths t2
  | .leaf, t2, _, _, heq => by
      cases t2 with
      | leaf => simp
      | node d2 =>
          simp only [treeEq] at heq
          exact absurd heq (by decide)
  | .node d1, t2, h1, h2, heq => by
      cases t2 with
      | leaf =>
          simp only [treeEq] at heq
          exact absurd heq (by decide)
      | node d2 =>
          simp only [treeEq, Bool.and_eq_true] at heq
          cases h1 with
          | node _ hne1 hwf1 =>
              cases h2 with
              | node _ hne2 hwf2 =>
                  rw [treePaths, treePaths]
                  exact dictLe_paths_sub hwf1 hwf2 heq.2
theorem dictLe_paths_sub : ∀ {d1 d2 : PDict}, WfDict d1 → WfDict d2 →
    dictLe d1 d2 = true → ∀ q ∈ dictPaths d1, q ∈ dictPaths d2
  | .nil, d2, _, _, _ => by simp [dictPaths]
  | .cons k v rest, d2, hwf1, hwf2, hle => by
      cases hwf1 with
      | cons _ _ _ hseg hget hv hrest =>
          intro q hq
          rcases (mem_dictPaths_cons k v rest q).mp hq with ⟨q', rfl, hq'⟩ | hr
          · rcases hm : d2.get k with _ | w
            · simp only [dictLe, hm, Bool.false_and] at hle
              exact absurd hle (by decide)
            · simp only [dictLe, hm, Bool.and_eq_true] at hle
              have hw : WfTree w := WfDict.get_wfTree hwf2 hm
              exact (mem_dictPaths_get hwf2 _).mpr
                ⟨k, w, q', rfl, hm, treeEq_paths_sub hv hw hle.1 q' hq'⟩
          · rcases hm : d2.get k with _ | w
            · simp only [dictLe, hm, Bool.false_and] at hle
              exact absurd hle (by decide)
            · simp only [dictLe, hm, Bool.and_eq_true] at hle
              exact dictLe_paths_sub hrest hwf2 hle.2 q hr
end

theorem treeEq_paths_iff {t1 t2 : PTree} (h1 : WfTree t1) (h2 : WfTree t2)
    (heq : treeEq t1 t2 = true) : ∀ q, q ∈ treePaths t1 ↔ q ∈ treePaths t2 := by
  intro q
  exact ⟨treeEq_paths_sub h1 h2 heq q, treeEq_paths_sub h2 h1 (treeEq_sym h1 h2 heq) q⟩

mutual
theorem treeEq_refl : ∀ {t : PTree}, WfTree t → treeEq t t = true
  | .leaf, _ => rfl
  | .node d, h => by
      cases h with
      | node _ hne hwf =>
          simp only [treeEq, Bool.and_eq_true, beq_iff_eq]
          exact ⟨trivial, dictLe_refl_aux hwf (fun k v h => h)⟩
theorem dictLe_refl_aux : ∀ {dsuf : PDict} {whole : PDict}, WfDict dsuf →
    (∀ k v, dsuf.get k = some v → whole.get k = some v) → dictLe dsuf whole = true
  | .nil, _, _, _ => rfl
  | .cons k v rest, whole, hwf, hprem => by
      cases hwf with
      | cons _ _ _ hseg hget hv hrest =>
          have h1 : whole.get k = some v := hprem k v (by rw [PDict.get, if_pos rfl])
          simp only [dictLe, h1, Bool.and_eq_true]
          constructor
          · exact treeEq_refl hv
          · exact dictLe_refl_aux hrest (fun k' v' hg' =>
              hprem k' v' (PDict.get_cons_of_rest (WfDict.cons k v rest hseg hget hv hrest) hg'))
end

/-! ### Correctness of `paths_to_tree` -/

theorem path_head_get {d : PDict} (hwf : WfDict d) (seg : String) (r' : List String) :
    seg :: r' ∈ dictPaths d ↔ ∃ c, d.get seg = some c ∧ r' ∈ treePaths c := by
  rw [mem_dictPaths_get hwf]
  constructor
  · rintro ⟨n, c, q', heq, hget, hq'⟩
    cases heq
    exact ⟨c, hget, hq'⟩
  · rintro ⟨c, hget, hr'⟩
    exact ⟨seg, c, r', rfl, hget, hr'⟩

theorem not_starts_of_get_none {d : PDict} (hwf : WfDict d) {seg : String}
    (h : d.get seg = none) : ∀ r', seg :: r' ∉ dictPaths d := by
  intro r' hr
  rcases (path_head_get hwf seg r').mp hr with ⟨c, hget, _⟩
  rw [h] at hget
  cases hget

theorem WfDict_set : ∀ (d : PDict) (k : String) (v : PTree),
    wfSeg k → WfTree v → WfDict d → WfDict (d.set k v) := by
  intro d
  induction d using PDict.rec (motive_1 := fun _ => True) with
  | leaf => trivial
  | node _ _ => trivial
  | nil =>
      intro k v hk hv _
      exact WfDict.cons k v .nil hk rfl hv WfDict.nil
  | cons k' v' rest _ ih =>
      intro k v hk hv hwf
      cases hwf with
      | cons _ _ _ hseg hget hwv hrest =>
          rw [PDict.set]
          by_cases hkk : k' = k
          · subst hkk
            rw [if_pos rfl]
            exact WfDict.cons k' v rest hseg hget hv hrest
          · rw [if_neg hkk]
            refine WfDict.cons k' v' (rest.set k v) hseg ?_ hwv (ih k v hk hv hrest)
            rw [PDict.get_set_ne rest k k' v hkk]
            exact hget

theorem mem_dictPaths_set : ∀ (d : PDict) (k : String) (v : PTree), WfDict d →
    ∀ r : List String,
    (r ∈ dictPaths (d.set k v) ↔
      (r ∈ dictPaths d ∧ ¬ ∃ r', r = k :: r') ∨ (∃ r', r = k :: r' ∧ r' ∈ treePaths v)) := by
  intro d
  induction d using PDict.rec (motive_1 := fun _ => True) with
  | leaf => trivial
  | node _ _ => trivial
  | nil =>
      intro k v _ r
      rw [PDict.set, mem_dictPaths_cons]
      simp [dictPaths]
  | cons k' v' rest _ ih =>
      intro k v hwf r
      cases hwf with
      | cons _ _ _ hseg hget hwv hrest =>
          rw [PDict.set]
          by_cases hkk : k' = k
          · subst hkk
            rw [if_pos rfl, mem_dictPaths_cons, mem_dictPaths_cons]
            have hnr : ∀ r', k' :: r' ∉ dictPaths rest := not_starts_of_get_none hrest hget
            constructor
            · rintro (⟨r', rfl, hr'⟩ | hr)
              · exact Or.inr ⟨r', rfl, hr'⟩
              · refine Or.inl ⟨Or.inr hr, ?_⟩
                rintro ⟨r', rfl⟩
                exact hnr r' hr
            · rintro (⟨hmem, hns⟩ | ⟨r', rfl, hr'⟩)
              · rcases hmem with ⟨r', rfl, _⟩ | hr
                · exact absurd ⟨r', rfl⟩ hns
                · exact Or.inr hr
              · exact Or.inl ⟨r', rfl, hr'⟩
          · rw [if_neg hkk, mem_dictPaths_cons, mem_dictPaths_cons]
            rw [ih k v hrest r]
            constructor
            · rintro (⟨r', rfl, hr'⟩ | (⟨hr, hns⟩ | ⟨r', rfl, hr'⟩))
              · refine Or.inl ⟨Or.inl ⟨r', rfl, hr'⟩, ?_⟩
                rintro ⟨r'', heq⟩
                cases heq
                exact hkk rfl
              · exact Or.inl ⟨Or.inr hr, hns⟩
              · exact Or.inr ⟨r', rfl, hr'⟩
            · rintro (⟨hmem, hns⟩ | ⟨r', rfl, hr'⟩)
              · rcases hmem with ⟨r', rfl, hr'⟩ | hr
                · exact Or.inl ⟨r', rfl, hr'⟩
                · exact Or.inr (Or.inl ⟨hr, hns⟩)
              · exact Or.inr (Or.inr ⟨r', rfl, hr'⟩)

theorem treePaths_sub_ne_nil {sub : PDict} {q : List String}
    (h : q ∈ dictPaths sub) : sub ≠ .nil := by
  intro he
  subst he
  rw [dictPaths] at h
  cases h

theorem insertPath_cons_cons (d : PDict) (seg s2 : String) (rest : List String) :
    insertPath d (seg :: s2 :: rest) =
      match d.get seg with
      | none => (insertPath .nil (s2 :: rest)).map (fun sub => d.set seg (.node sub))
      | some (.node sub) => (insertPath sub (s2 :: rest)).map (fun sub' => d.set seg (.node sub'))
      | some .leaf => none := rfl

theorem insertPath_spec : ∀ (segs : List String) (d : PDict), WfDict d →
    (∀ s ∈ segs, wfSeg s) →
    (∀ q1 t, segs = q1 ++ t → t ≠ [] → q1 ∉ dictPaths d) →
    (∀ t, t ≠ [] → segs ++ t ∉ dictPaths d) →
    segs ≠ [] →
    ∃ d', insertPath d segs = some d' ∧ WfDict d' ∧
      (∀ r, r ∈ dictPaths d' ↔ r ∈ dictPaths d ∨ r = segs)
  | [], _, _, _, _, _, hne => absurd rfl hne
  | [last], d, hwf, hsegswf, hanc, hext, _ => by
      refine ⟨d.set last .leaf, rfl, WfDict_set d last .leaf (hsegswf last (by simp))
        WfTree.leaf hwf, ?_⟩
      intro r
      rw [mem_dictPaths_set d last .leaf hwf r]
      constructor
      · rintro (⟨hr, _⟩ | ⟨r', rfl, hr'⟩)
        · exact Or.inl hr
        · rw [treePaths] at hr'
          simp only [List.mem_singleton] at hr'
          subst hr'
          exact Or.inr rfl
      · rintro (hr | rfl)
        · by_cases hs : ∃ r', r = last :: r'
          · rcases hs with ⟨r', rfl⟩
            cases r' with
            | nil => exact Or.inr ⟨[], rfl, by simp [treePaths]⟩
            | cons a t =>
                exact absurd hr (hext (a :: t) (by simp))
          · exact Or.inl ⟨hr, hs⟩
        · exact Or.inr ⟨[], rfl, by simp [treePaths]⟩
  | seg :: s2 :: rest, d, hwf, hsegswf, hanc, hext, _ => by
      have hwfseg : wfSeg seg := hsegswf seg (by simp)
      have hwftail : ∀ s ∈ s2 :: rest, wfSeg s := fun s hs => hsegswf s (by simp [hs])
      rcases hm : d.get seg with _ | c
      · -- key absent: insert into a fresh dict
        have hsub := insertPath_spec (s2 :: rest) .nil WfDict.nil hwftail
          (by intro q1 t _ _ hq1; rw [dictPaths] at hq1; cases hq1)
          (by intro t _ hq; rw [dictPaths] at hq; cases hq)
          (by simp)
        rcases hsub with ⟨sub, hins, hwfsub, hmem⟩
        have hsegs' : (s2 :: rest) ∈ dictPaths sub := (hmem _).mpr (Or.inr rfl)
        refine ⟨d.set seg (.node sub), ?_, ?_, ?_⟩
        · have hred : insertPath d (seg :: s2 :: rest) =
              (insertPath .nil (s2 :: rest)).map (fun sub => d.set seg (.node sub)) := by
            rw [insertPath_cons_cons, hm]
          rw [hred, hins]
          rfl
        · exact WfDict_set d seg (.node sub) hwfseg
            (WfTree.node sub (treePaths_sub_ne_nil hsegs') hwfsub) hwf
        · intro r
          rw [mem_dictPaths_set d seg (.node sub) hwf r]
          constructor
          · rintro (⟨hr, _⟩ | ⟨r', rfl, hr'⟩)
            · exact Or.inl hr
            · rw [treePaths] at hr'
              rcases (hmem r').mp hr' with h | rfl
              · rw [dictPaths] at h; cases h
              · exact Or.inr rfl
          · rintro (hr | rfl)
            · refine Or.inl ⟨hr, ?_⟩
              rintro ⟨r', rfl⟩
              exact not_starts_of_get_none hwf hm r' hr
            · exact Or.inr ⟨s2 :: rest, rfl, by rw [treePaths]; exact hsegs'⟩
      · cases c with
        | leaf =>
            -- a shorter path is already a leaf here: `hanc` rules this out
            have : [seg] ∈ dictPaths d :=
              (path_head_get hwf seg []).mpr ⟨.leaf, hm, by simp [treePaths]⟩
            exact absurd this (hanc [seg] (s2 :: rest) rfl (by simp))
        | node sub =>
            have hwfnode : WfTree (.node sub) := WfDict.get_wfTree hwf hm
            have hwfsub : WfDict sub := by
              cases hwfnode with
              | node _ _ h => exact h
            have hsub := insertPath_spec (s2 :: rest) sub hwfsub hwftail
              (by
                intro q1 t heq ht hq1
                refine hanc (seg :: q1) t (by rw [heq]; rfl) ht ?_
                exact (path_head_get hwf seg q1).mpr ⟨.node sub, hm, by rw [treePaths]; exact hq1⟩)
              (by
                intro t ht hq
                refine hext t ht ?_
                exact (path_head_get hwf seg _).mpr ⟨.node sub, hm, by rw [treePaths]; exact hq⟩)
              (by simp)
            rcases hsub with ⟨sub', hins, hwfsub', hmem⟩
            have hsegs' : (s2 :: rest) ∈ dictPaths sub' := (hmem _).mpr (Or.inr rfl)
            refine ⟨d.set seg (.node sub'), ?_, ?_, ?_⟩
            · have hred : insertPath d (seg :: s2 :: rest) =
                  (insertPath sub (s2 :: rest)).map (fun sub' => d.set seg (.node sub')) := by
                rw [insertPath_cons_cons, hm]
              rw [hred, hins]
              rfl
            · exact WfDict_set d seg (.node sub') hwfseg
                (WfTree.node sub' (treePaths_sub_ne_nil hsegs') hwfsub') hwf
            · intro r
              rw [mem_dictPaths_set d seg (.node sub') hwf r]
              constructor
              · rintro (⟨hr, _⟩ | ⟨r', rfl, hr'⟩)
                · exact Or.inl hr
                · rw [treePaths] at hr'
                  rcases (hmem r').mp hr' with h | rfl
                  · exact Or.inl ((path_head_get hwf seg r').mpr
                      ⟨.node sub, hm, by rw [treePaths]; exact h⟩)
                  · exact Or.inr rfl
              · rintro (hr | rfl)
                · by_cases hs : ∃ r', r = seg :: r'
                  · rcases hs with ⟨r', rfl⟩
                    rcases (path_head_get hwf seg r').mp hr with ⟨c, hgc, hrc⟩
                    rw [hm] at hgc
                    cases hgc
                    rw [treePaths] at hrc
                    exact Or.inr ⟨r', rfl, by rw [treePaths]; exact (hmem r').mpr (Or.inl hrc)⟩
                  · exact Or.inl ⟨hr, hs⟩
                · exact Or.inr ⟨s2 :: rest, rfl, by rw [treePaths]; exact hsegs'⟩

theorem insert_fold_spec : ∀ (ps : List String) (d0 : PDict), WfDict d0 →
    (∀ p ∈ ps, wfPath p) →
    (∀ p ∈ ps, ∀ r ∈ dictPaths d0, strictBelow r (pySplit p) = false) →
    (∀ p ∈ ps, ∀ r ∈ dictPaths d0, strictBelow (pySplit p) r = false) →
    NestFree ps →
    ∃ d, ps.foldlM (fun d p => insertPath d (pySplit p)) d0 = some d ∧ WfDict d ∧
      (∀ r, r ∈ dictPaths d ↔ r ∈ dictPaths d0 ∨ ∃ p ∈ ps, r = pySplit p)
  | [], d0, hwf0, _, _, _, _ => ⟨d0, rfl, hwf0, by simp⟩
  | p0 :: ps', d0, hwf0, hwfp, hcr1, hcr2, hnf => by
      have hp0 : wfPath p0 := hwfp p0 (by simp)
      have hsegswf : ∀ s ∈ pySplit p0, wfSeg s := fun s hs =>
        ⟨hp0 s hs, pySplit_no_slash p0 s hs⟩
      have hins := insertPath_spec (pySplit p0) d0 hwf0 hsegswf
        (by
          intro q1 t heq ht hq1
          have : strictBelow q1 (pySplit p0) = true :=
            (strictBelow_iff q1 (pySplit p0)).mpr ⟨t, ht, heq⟩
          rw [hcr1 p0 (by simp) q1 hq1] at this
          cases this)
        (by
          intro t ht hq
          have : strictBelow (pySplit p0) (pySplit p0 ++ t) = true :=
            (strictBelow_iff _ _).mpr ⟨t, ht, rfl⟩
          rw [hcr2 p0 (by simp) _ hq] at this
          cases this)
        (pySplit_ne_nil p0)
      rcases hins with ⟨d1, hins1, hwf1, hmem1⟩
      have hrec := insert_fold_spec ps' d1 hwf1 (fun p hp => hwfp p (by simp [hp]))
        (by
          intro p hp r hr
          rcases (hmem1 r).mp hr with hold | rfl
          · exact hcr1 p (by simp [hp]) r hold
          · exact hnf p0 (by simp) p (by simp [hp]))
        (by
          intro p hp r hr
          rcases (hmem1 r).mp hr with hold | rfl
          · exact hcr2 p (by simp [hp]) r hold
          · exact hnf p (by simp [hp]) p0 (by simp))
        (fun p hp q hq => hnf p (by simp [hp]) q (by simp [hq]))
      rcases hrec with ⟨d, hfold, hwfd, hmemd⟩
      refine ⟨d, ?_, hwfd, ?_⟩
      · rw [List.foldlM_cons, hins1]
        exact hfold
      · intro r
        rw [hmemd r]
        constructor
        · rintro (h1 | ⟨p, hp, rfl⟩)
          · rcases (hmem1 r).mp h1 with hold | rfl
            · exact Or.inl hold
            · exact Or.inr ⟨p0, by simp, rfl⟩
          · exact Or.inr ⟨p, by simp [hp], rfl⟩
        · rintro (h0 | ⟨p, hp, rfl⟩)
          · exact Or.inl ((hmem1 r).mpr (Or.inl h0))
          · rcases List.mem_cons.mp hp with rfl | hp'
            · exact Or.inl ((hmem1 _).mpr (Or.inr rfl))
            · exact Or.inr ⟨p, hp', rfl⟩

theorem paths_to_tree_spec (ps : List String) (hwf : ∀ p ∈ ps, wfPath p)
    (hnf : NestFree ps) :
    ∃ d, paths_to_tree ps = some d ∧ WfDict d ∧
      (∀ r, r ∈ dictPaths d ↔ ∃ p ∈ ps, r = pySplit p) := by
  rcases insert_fold_spec ps .nil WfDict.nil hwf
      (by intro p _ r hr; rw [dictPaths] at hr; cases hr)
      (by intro p _ r hr; rw [dictPaths] at hr; cases hr) hnf
    with ⟨d, hfold, hwfd, hmem⟩
  refine ⟨d, hfold, hwfd, ?_⟩
  intro r
  rw [hmem r]
  constructor
  · rintro (h | h)
    · rw [dictPaths] at h; cases h
    · exact h
  · exact Or.inr

/-! ### Subtree construction -/

mutual
theorem subT_of_paths : ∀ {t1 t2 : PTree}, WfTree t1 → WfTree t2 →
    (∀ q ∈ treePaths t1, q ∈ treePaths t2) → SubT t1 t2
  | .leaf, t2, _, _, hsub => by
      have h0 : ([] : List String) ∈ treePaths t2 := hsub [] (by simp [treePaths])
      cases t2 with
      | leaf => exact SubT.leaf
      | node d2 =>
          rw [treePaths] at h0
          exact absurd rfl (dictPaths_ne_nil_elem d2 [] h0)
  | .node d1, t2, h1, h2, hsub => by
      cases h1 with
      | node _ hne1 hwf1 =>
          cases t2 with
          | leaf =>
              rcases List.exists_mem_of_ne_nil _ (dictPaths_nonempty hwf1 hne1) with ⟨q, hq⟩
              have hql : q ∈ treePaths PTree.leaf := hsub q (by rw [treePaths]; exact hq)
              rw [treePaths] at hql
              simp only [List.mem_singleton] at hql
              subst hql
              exact absurd rfl (dictPaths_ne_nil_elem d1 [] hq)
          | node d2 =>
              cases h2 with
              | node _ hne2 hwf2 =>
                  refine SubT.node d1 d2 (subD_of_paths hwf1 hwf2 ?_)
                  intro q hq
                  have := hsub q (by rw [treePaths]; exact hq)
                  rw [treePaths] at this
                  exact this
theorem subD_of_paths : ∀ {d1 d2 : PDict}, WfDict d1 → WfDict d2 →
    (∀ q ∈ dictPaths d1, q ∈ dictPaths d2) → SubD d1 d2
  | .nil, d2, _, _, _ => SubD.nil d2
  | .cons k v rest, d2, hwf1, hwf2, hsub => by
      cases hwf1 with
      | cons _ _ _ hseg hget hv hrest =>
          rcases List.exists_mem_of_ne_nil _ (treePaths_nonempty hv) with ⟨q0, hq0⟩
          have hq0' : k :: q0 ∈ dictPaths d2 :=
            hsub _ ((mem_dictPaths_cons k v rest _).mpr (Or.inl ⟨q0, rfl, hq0⟩))
          rcases (path_head_get hwf2 k q0).mp hq0' with ⟨w, hgw, _⟩
          refine SubD.cons k v rest d2 w hgw ?_ ?_
          · refine subT_of_paths hv (WfDict.get_wfTree hwf2 hgw) ?_
            intro q hq
            have hmem : k :: q ∈ dictPaths d2 :=
              hsub _ ((mem_dictPaths_cons k v rest _).mpr (Or.inl ⟨q, rfl, hq⟩))
            rcases (path_head_get hwf2 k q).mp hmem with ⟨w', hgw', hqw'⟩
            rw [hgw] at hgw'
            cases hgw'
            exact hqw'
          · exact subD_of_paths hrest hwf2
              (fun q hq => hsub q ((mem_dictPaths_cons k v rest _).mpr (Or.inr hq)))
end

/-! ### The main specification of `reduce_common_trees` -/

theorem reduceChildren_cons (parts : List String) (n : String) (c : PTree) (rest : PDict)
    (d2 : PDict) (ex : Option PDict) :
    reduceChildren parts (.cons n c rest) (.node d2) ex =
      match d2.get n with
      | none => none
      | some c2 =>
        match reduce_common_trees (parts ++ [n]) c c2 (exGet ex n) with
        | none => none
        | some rs1 =>
          match reduceChildren parts rest (.node d2) ex with
          | none => none
          | some rs2 => some (rs1 ++ rs2) := rfl

mutual
theorem reduce_spec_tree : ∀ {t1 t2 : PTree} (ex : Option PDict) (parts : List String),
    SubT t1 t2 → WfTree t1 → WfTree t2 →
    ∃ rss : List (List String),
      reduce_common_trees parts t1 t2 ex = some (rss.map (fun s => pyJoin (parts ++ s))) ∧
      (∀ s ∈ rss, ∀ seg ∈ s, wfSeg seg) ∧
      (∀ q : List String, (∃ s ∈ rss, ∃ tl, q = s ++ tl ∧ q ∈ treePaths t2) ↔ q ∈ treePaths t1)
  | .leaf, t2, ex, parts, hsub, _, _ => by
      have ht2 : t2 = .leaf := by
        cases hsub with
        | leaf => rfl
      subst ht2
      refine ⟨[[]], by simp [reduce_common_trees], by simp, ?_⟩
      intro q
      simp only [List.mem_singleton, treePaths]
      constructor
      · rintro ⟨s, hs, tl, rfl, hq⟩
        exact hq
      · rintro hq
        simp only [List.mem_singleton] at hq
        subst hq
        exact ⟨[], rfl, [], rfl, by simp⟩
  | .node d1, t2, ex, parts, hsub, h1, h2 => by
      rw [reduce_common_trees]
      by_cases hc : (treeEq (.node d1) t2 && ex.isNone) = true
      · rw [if_pos hc]
        rw [Bool.and_eq_true] at hc
        rcases hc with ⟨heq, _⟩
        refine ⟨[[]], by simp, by simp, ?_⟩
        intro q
        have hiff := treeEq_paths_iff h1 h2 heq q
        constructor
        · rintro ⟨s, hs, tl, rfl, hq⟩
          exact hiff.mpr hq
        · intro hq
          exact ⟨[], by simp, q, rfl, hiff.mp hq⟩
      · rw [if_neg hc]
        cases hsub with
        | node _ d2 hsubd =>
            cases h1 with
            | node _ hne1 hwf1 =>
                cases h2 with
                | node _ hne2 hwf2 =>
                    rcases reduce_spec_dict ex parts hsubd hwf1 hwf2
                      with ⟨rss, hred, _, hwfs, hiff⟩
                    refine ⟨rss, hred, hwfs, ?_⟩
                    intro q
                    rw [treePaths, treePaths]
                    exact hiff q
theorem reduce_spec_dict : ∀ {d1 d2 : PDict} (ex : Option PDict) (parts : List String),
    SubD d1 d2 → WfDict d1 → WfDict d2 →
    ∃ rss : List (List String),
      reduceChildren parts d1 (.node d2) ex = some (rss.map (fun s => pyJoin (parts ++ s))) ∧
      (∀ s ∈ rss, s ≠ []) ∧
      (∀ s ∈ rss, ∀ seg ∈ s, wfSeg seg) ∧
      (∀ q : List String, (∃ s ∈ rss, ∃ tl, q = s ++ tl ∧ q ∈ dictPaths d2) ↔ q ∈ dictPaths d1)
  | .nil, d2, ex, parts, _, _, _ => by
      refine ⟨[], by simp [reduceChildren], by simp, by simp, ?_⟩
      intro q
      simp [dictPaths]
  | .cons n c rest, d2, ex, parts, hsub, hwf1, hwf2 => by
      cases hsub with
      | cons _ _ _ _ w hgw hsubc hsubr =>
          cases hwf1 with
          | cons _ _ _ hseg hget hc hrest =>
              have hwfw : WfTree w := WfDict.get_wfTree hwf2 hgw
              rcases reduce_spec_tree (exGet ex n) (parts ++ [n]) hsubc hc hwfw
                with ⟨rssc, hredc, hwfsc, hiffc⟩
              rcases reduce_spec_dict ex parts hsubr hrest hwf2
                with ⟨rssr, hredr, hner, hwfsr, hiffr⟩
              refine ⟨rssc.map (n :: ·) ++ rssr, ?_, ?_, ?_, ?_⟩
              · have e1 : reduceChildren parts (.cons n c rest) (.node d2) ex =
                    (match reduce_common_trees (parts ++ [n]) c w (exGet ex n) with
                     | none => none
                     | some rs1 =>
                       match reduceChildren parts rest (.node d2) ex with
                       | none => none
                       | some rs2 => some (rs1 ++ rs2)) := by
                  rw [reduceChildren_cons, hgw]
                have e2 : reduceChildren parts (.cons n c rest) (.node d2) ex =
                    (match reduceChildren parts rest (.node d2) ex with
                     | none => none
                     | some rs2 =>
                       some (rssc.map (fun s => pyJoin (parts ++ [n] ++ s)) ++ rs2)) := by
                  rw [e1, hredc]
                have e3 : reduceChildren parts (.cons n c rest) (.node d2) ex =
                    some (rssc.map (fun s => pyJoin (parts ++ [n] ++ s)) ++
                      rssr.map (fun s => pyJoin (parts ++ s))) := by
                  rw [e2, hredr]
                rw [e3]
                congr 1
                rw [List.map_append, List.map_map]
                congr 1
                apply List.map_congr_left
                intro s _
                simp only [Function.comp_apply]
                congr 1
                simp
              · intro s hs
                rcases List.mem_append.mp hs with h | h
                · rcases List.mem_map.mp h with ⟨s', _, rfl⟩
                  simp
                · exact hner s h
              · intro s hs seg hsg
                rcases List.mem_append.mp hs with h | h
                · rcases List.mem_map.mp h with ⟨s', hs', rfl⟩
                  rcases List.mem_cons.mp hsg with rfl | hsg'
                  · exact hseg
                  · exact hwfsc s' hs' seg hsg'
                · exact hwfsr s h seg hsg
              · intro q
                rw [mem_dictPaths_cons]
                constructor
                · rintro ⟨s, hs, tl, rfl, hq⟩
                  rcases List.mem_append.mp hs with h | h
                  · rcases List.mem_map.mp h with ⟨sc, hsc, rfl⟩
                    rw [List.cons_append] at hq ⊢
                    rcases (path_head_get hwf2 n (sc ++ tl)).mp hq with ⟨c2, hgc2, hqc2⟩
                    rw [hgw] at hgc2
                    cases hgc2
                    refine Or.inl ⟨sc ++ tl, rfl, ?_⟩
                    exact (hiffc (sc ++ tl)).mp ⟨sc, hsc, tl, rfl, hqc2⟩
                  · exact Or.inr ((hiffr (s ++ tl)).mp ⟨s, h, tl, rfl, hq⟩)
                · rintro (⟨q', rfl, hq'⟩ | hr)
                  · rcases (hiffc q').mpr hq' with ⟨sc, hsc, tl, rfl, hqw⟩
                    refine ⟨n :: sc, List.mem_append.mpr (Or.inl (List.mem_map.mpr ⟨sc, hsc, rfl⟩)),
                      tl, by simp, ?_⟩
                    exact (path_head_get hwf2 n (sc ++ tl)).mpr ⟨w, hgw, hqw⟩
                  · rcases (hiffr q).mpr hr with ⟨s, hs, tl, rfl, hq2⟩
                    exact ⟨s, List.mem_append.mpr (Or.inr hs), tl, rfl, hq2⟩
end

theorem reduce_common_paths_eq {U P X : List String} {dU dP dX : PDict}
    (hU : paths_to_tree U = some dU) (hP : paths_to_tree P = some dP)
    (hX : paths_to_tree X = some dX) :
    reduce_common_paths U P X =
      match reduce_common_trees [] (.node dU) (.node dP) (some dX) with
      | none => none
      | some ret =>
          if ret.length = 1 ∧ ret.headD "x" = "" then some dU.keys else some ret := by
  unfold reduce_common_paths
  simp only [hU, hP, hX]

theorem reduce_top_descends (dU dP dX : PDict) :
    reduce_common_trees [] (.node dU) (.node dP) (some dX) =
      reduceChildren [] dU (.node dP) (some dX) := by
  rw [reduce_common_trees]
  simp

/-- C1: for every path list `U ⊆ P` (well-formed, nest-free `P`) and
exclusion list `X` (well-formed, nest-free) disjoint from `U`,
`reduce_common_paths U P X` succeeds and returns entries whose expansion
over `P` (the members of `P` lying at or below the entry) is exactly `U`,
and no returned entry's expansion over `P` contains a path of `X`. -/
theorem c1_reduce_expansion
    (U P X : List String)
    (hwfP : ∀ p ∈ P, wfPath p) (hwfX : ∀ x ∈ X, wfPath x)
    (hnfP : NestFree P) (hnfX : NestFree X)
    (hUP : ∀ p ∈ U, p ∈ P) (hdisj : ∀ p ∈ U, p ∉ X) :
    ∃ rs, reduce_common_paths U P X = some rs ∧
      (∀ p : String, ((∃ e ∈ rs, ∃ tl, pySplit p = pySplit e ++ tl) ∧ p ∈ P) ↔ p ∈ U) ∧
      (∀ e ∈ rs, ∀ x ∈ X, x ∈ P → ¬ ∃ tl, pySplit x = pySplit e ++ tl) := by
  have hwfU : ∀ p ∈ U, wfPath p := fun p hp => hwfP p (hUP p hp)
  have hnfU : NestFree U := fun p hp q hq => hnfP p (hUP p hp) q (hUP q hq)
  rcases paths_to_tree_spec U hwfU hnfU with ⟨dU, hbU, hwfdU, hmemU⟩
  rcases paths_to_tree_spec P hwfP hnfP with ⟨dP, hbP, hwfdP, hmemP⟩
  rcases paths_to_tree_spec X hwfX hnfX with ⟨dX, hbX, hwfdX, hmemX⟩
  have memP : ∀ p : String, p ∈ P ↔ pySplit p ∈ dictPaths dP := by
    intro p
    rw [hmemP]
    constructor
    · intro hp
      exact ⟨p, hp, rfl⟩
    · rintro ⟨p', hp', heq⟩
      rw [pySplit_inj heq]
      exact hp'
  have memU : ∀ p : String, p ∈ U ↔ pySplit p ∈ dictPaths dU := by
    intro p
    rw [hmemU]
    constructor
    · intro hp
      exact ⟨p, hp, rfl⟩
    · rintro ⟨p', hp', heq⟩
      rw [pySplit_inj heq]
      exact hp'
  have hsub : SubD dU dP := by
    refine subD_of_paths hwfdU hwfdP ?_
    intro q hq
    rcases (hmemU q).mp hq with ⟨p, hp, rfl⟩
    exact (hmemP _).mpr ⟨p, hUP p hp, rfl⟩
  rcases reduce_spec_dict (some dX) [] hsub hwfdU hwfdP with ⟨rss, hred, hne, hwfs, hiff⟩
  have hsplit_e : ∀ s ∈ rss, pySplit (pyJoin s) = s := fun s hs =>
    pySplit_pyJoin s (hne s hs) (fun x hx => (hwfs s hs x hx).2)
  have hmapeq : rss.map (fun s => pyJoin ([] ++ s)) = rss.map pyJoin := by
    apply List.map_congr_left
    intro s _
    rw [List.nil_append]
  have hval : reduce_common_paths U P X = some (rss.map pyJoin) := by
    rw [reduce_common_paths_eq hbU hbP hbX, reduce_top_descends, hred, hmapeq]
    have hcond : ¬ ((rss.map pyJoin).length = 1 ∧ (rss.map pyJoin).headD "x" = "") := by
      rintro ⟨hlen, hhead⟩
      rcases List.length_eq_one.mp hlen with ⟨e, he⟩
      rw [he] at hhead
      have hemem : e ∈ rss.map pyJoin := by
        rw [he]
        simp
      rcases List.mem_map.mp hemem with ⟨s, hs, rfl⟩
      rcases hs' : s with _ | ⟨seg, s'⟩
      · exact hne s hs hs'
      · subst hs'
        exact pyJoin_ne_empty seg s' (hwfs _ hs seg (by simp)).1 hhead
    show (if (rss.map pyJoin).length = 1 ∧ (rss.map pyJoin).headD "x" = ""
        then some dU.keys else some (rss.map pyJoin)) = some (rss.map pyJoin)
    rw [if_neg hcond]
  refine ⟨rss.map pyJoin, hval, ?_, ?_⟩
  · intro p
    constructor
    · rintro ⟨⟨e, he, tl, htl⟩, hpP⟩
      rcases List.mem_map.mp he with ⟨s, hs, rfl⟩
      rw [hsplit_e s hs] at htl
      exact (memU p).mpr ((hiff (pySplit p)).mp ⟨s, hs, tl, htl, (memP p).mp hpP⟩)
    · intro hpU
      rcases (hiff (pySplit p)).mpr ((memU p).mp hpU) with ⟨s, hs, tl, hq, hqP⟩
      exact ⟨⟨pyJoin s, List.mem_map.mpr ⟨s, hs, rfl⟩, tl, by rw [hsplit_e s hs]; exact hq⟩,
        hUP p hpU⟩
  · intro e he x hx hxP
    rintro ⟨tl, htl⟩
    have hxU : x ∈ U := by
      rcases List.mem_map.mp he with ⟨s, hs, rfl⟩
      rw [hsplit_e s hs] at htl
      exact (memU x).mpr ((hiff (pySplit x)).mp ⟨s, hs, tl, htl, (memP x).mp hxP⟩)
    exact hdisj x hxU hx

theorem c1_witness :
    (∀ p ∈ ["a/x", "b"], wfPath p) ∧ (∀ x ∈ ["b"], wfPath x) ∧
    NestFree ["a/x", "b"] ∧ NestFree ["b"] ∧
    (∀ p ∈ ["a/x"], p ∈ ["a/x", "b"]) ∧ (∀ p ∈ ["a/x"], p ∉ ["b"]) ∧
    ∃ rs, reduce_common_paths ["a/x"] ["a/x", "b"] ["b"] = some rs ∧
      (∀ p : String,
        ((∃ e ∈ rs, ∃ tl, pySplit p = pySplit e ++ tl) ∧ p ∈ ["a/x", "b"]) ↔ p ∈ ["a/x"]) ∧
      (∀ e ∈ rs, ∀ x ∈ ["b"], x ∈ ["a/x", "b"] → ¬ ∃ tl, pySplit x = pySplit e ++ tl) :=
  ⟨by decide, by decide, by decide, by decide, by decide, by decide,
   c1_reduce_expansion ["a/x"] ["a/x", "b"] ["b"]
     (by decide) (by decide) (by decide) (by decide) (by decide) (by decide)⟩

/-! ### The identical-trees case (claim C2) -/

theorem reduceChildren_self : ∀ (d1 : PDict) (whole : PDict) (parts : List String),
    WfDict d1 → (∀ k v, d1.get k = some v → whole.get k = some v) →
    reduceChildren parts d1 (.node whole) (some .nil) =
      some (d1.keys.map (fun n => pyJoin (parts ++ [n])))
  | .nil, whole, parts, _, _ => by simp [reduceChildren, PDict.keys]
  | .cons n c rest, whole, parts, hwf, hprem => by
      cases hwf with
      | cons _ _ _ hseg hget hc hrest =>
          have hgw : whole.get n = some c := hprem n c (by rw [PDict.get, if_pos rfl])
          have hchild : reduce_common_trees (parts ++ [n]) c c (exGet (some .nil) n) =
              some [pyJoin (parts ++ [n])] := by
            have hex : exGet (some .nil) n = none := rfl
            rw [hex]
            cases c with
            | leaf => rw [reduce_common_trees]
            | node dc =>
                rw [reduce_common_trees, if_pos]
                rw [Bool.and_eq_true]
                exact ⟨treeEq_refl hc, rfl⟩
          have hrec := reduceChildren_self rest whole parts hrest
            (fun k v hg => hprem k v
              (PDict.get_cons_of_rest (WfDict.cons n c rest hseg hget hc hrest) hg))
          have e1 : reduceChildren parts (.cons n c rest) (.node whole) (some .nil) =
              (match reduce_common_trees (parts ++ [n]) c c (exGet (some .nil) n) with
               | none => none
               | some rs1 =>
                 match reduceChildren parts rest (.node whole) (some .nil) with
                 | none => none
                 | some rs2 => some (rs1 ++ rs2)) := by
            rw [reduceChildren_cons, hgw]
          rw [e1, hchild, hrec]
          rw [PDict.keys]
          rfl

theorem keys_ne_nil_of_path {d : PDict} (hwf : WfDict d) {q : List String}
    (hq : q ∈ dictPaths d) : d.keys ≠ [] := by
  intro hk
  cases q with
  | nil => exact dictPaths_ne_nil_elem d [] hq rfl
  | cons s r' =>
      have : s ∈ d.keys := (mem_keys_iff_heads hwf s).mpr ⟨r', hq⟩
      rw [hk] at this
      cases this

/-- C2: for a non-empty well-formed nest-free path list `P`, with the
unchanged set equal to `P` itself and no exclusions,
`reduce_common_paths P P []` returns exactly the immediate children of the
root — the distinct first-level path segments — and the empty string (the
root itself) is never among them. -/
theorem c2_reduce_identical (P : List String) (hne : P ≠ [])
    (hwf : ∀ p ∈ P, wfPath p) (hnf : NestFree P) :
    ∃ rs, reduce_common_paths P P [] = some rs ∧
      rs ≠ [] ∧ "" ∉ rs ∧ rs.Nodup ∧
      (∀ s, s ∈ rs ↔ ∃ p ∈ P, ∃ r', pySplit p = s :: r') := by
  rcases paths_to_tree_spec P hwf hnf with ⟨dP, hbP, hwfdP, hmemP⟩
  have hbE : paths_to_tree [] = some .nil := rfl
  have hself : reduceChildren [] dP (.node dP) (some .nil) =
      some (dP.keys.map (fun n => pyJoin ([] ++ [n]))) :=
    reduceChildren_self dP dP [] hwfdP (fun _ _ h => h)
  have hkeysmap : dP.keys.map (fun n => pyJoin ([] ++ [n])) = dP.keys := by
    have : ∀ n ∈ dP.keys, pyJoin ([] ++ [n]) = n := by
      intro n _
      rw [List.nil_append, pyJoin_single]
    rw [List.map_congr_left this]
    exact List.map_id' dP.keys
  have hkwf : ∀ n ∈ dP.keys, wfSeg n := WfDict.keys_wfSeg hwfdP
  have hcond : ¬ (dP.keys.length = 1 ∧ dP.keys.headD "x" = "") := by
    rintro ⟨hlen, hhead⟩
    rcases List.length_eq_one.mp hlen with ⟨e, he⟩
    rw [he] at hhead
    have : wfSeg e := hkwf e (by rw [he]; simp)
    exact this.1 hhead
  have hval : reduce_common_paths P P [] = some dP.keys := by
    rw [reduce_common_paths_eq hbP hbP hbE, reduce_top_descends, hself, hkeysmap]
    show (if dP.keys.length = 1 ∧ dP.keys.headD "x" = ""
        then some dP.keys else some dP.keys) = some dP.keys
    rw [if_neg hcond]
  refine ⟨dP.keys, hval, ?_, ?_, hwfdP.keys_nodup, ?_⟩
  · rcases List.exists_mem_of_ne_nil P hne with ⟨p, hp⟩
    exact keys_ne_nil_of_path hwfdP ((hmemP (pySplit p)).mpr ⟨p, hp, rfl⟩)
  · intro hmem
    exact (hkwf "" hmem).1 rfl
  · intro s
    rw [mem_keys_iff_heads hwfdP s]
    constructor
    · rintro ⟨q', hq⟩
      rcases (hmemP _).mp hq with ⟨p, hp, heq⟩
      exact ⟨p, hp, q', heq.symm⟩
    · rintro ⟨p, hp, r', heq⟩
      exact ⟨r', (hmemP _).mpr ⟨p, hp, heq.symm⟩⟩

theorem c2_witness :
    (["a/x", "a/y", "b"] : List String) ≠ [] ∧
    (∀ p ∈ ["a/x", "a/y", "b"], wfPath p) ∧ NestFree ["a/x", "a/y", "b"] ∧
    ∃ rs, reduce_common_paths ["a/x", "a/y", "b"] ["a/x", "a/y", "b"] [] = some rs ∧
      rs ≠ [] ∧ "" ∉ rs ∧ rs.Nodup ∧
      (∀ s, s ∈ rs ↔ ∃ p ∈ ["a/x", "a/y", "b"], ∃ r', pySplit p = s :: r') :=
  ⟨by decide, by decide, by decide,
   c2_reduce_identical ["a/x", "a/y", "b"] (by decide) (by decide) (by decide)⟩

/-! ### The concrete reduction scenario (claim C3) -/

/-- C3 counterexample: on the spec's concrete scenario the code folds the
fully-unchanged directory `b` into the single entry `"b"`; the returned
list is `["a/x.txt", "b"]`, which does not contain `"b/z.txt"`, so the
returned entries are not the claimed set `{a/x.txt, b/z.txt}`. -/
theorem c3_counterexample :
    reduce_common_paths ["a/x.txt", "b/z.txt"] ["a/x.txt", "a/y.txt", "b/z.txt"]
        ["a/y.txt"] = some ["a/x.txt", "b"] ∧
    "b/z.txt" ∉ (["a/x.txt", "b"] : List String) ∧
    "b" ∈ (["a/x.txt", "b"] : List String) := by
  refine ⟨by decide, by decide, by decide⟩

/-- C3 (amended): on the inputs `unchanged = [a/x.txt, b/z.txt]`,
`previous_full = [a/x.txt, a/y.txt, b/z.txt]`, `excluded = [a/y.txt]`,
`reduce_common_paths` returns exactly `["a/x.txt", "b"]`: the directory
`a` is not folded because an excluded file lies under it, and `b` — whose
whole subtree is unchanged and exclusion-free — is folded to the single
directory entry `"b"` (not to the file entry `b/z.txt`). -/
theorem c3_reduce_concrete :
    reduce_common_paths ["a/x.txt", "b/z.txt"] ["a/x.txt", "a/y.txt", "b/z.txt"]
        ["a/y.txt"] = some ["a/x.txt", "b"] := by
  decide

/-! ### `export_storage_file` polarity (claim C5) -/

/-- C5: the `overwrite` test of `export_storage_file` is inverted.  With
overwrite *disabled* and a file already present at the destination
(contents `1`), the function overwrites it with the storage bytes (`2`)
instead of leaving it unchanged; with overwrite *enabled* it skips the
copy and keeps the existing contents. -/
theorem c5_export_storage_file_inverted :
    export_storage_file false (some 1) 2 = some 2 ∧
    export_storage_file true (some 1) 2 = some 1 ∧
    export_storage_file false none 2 = some 2 ∧
    export_storage_file true none 2 = some 2 := by
  decide

/-! ### Duplicate check at the end of `export` (claim C6) -/

/-- C6: with a previous patch, `export` raises the duplicate-files
`RuntimeError` iff some path was both linked and extracted; when the
intersection is empty the export completes and sets `previous_links` to
the reduced manifest.  Without a previous patch, `previous_links` stays
unset and no error is raised. -/
theorem c6_export_duplicates_iff (links extracted files m : List String)
    (hred : reduce_common_paths links files extracted = some m) :
    (exportFinish true links extracted files = .errorDuplicates ↔
      ∃ p, p ∈ links ∧ p ∈ extracted) ∧
    ((¬ ∃ p, p ∈ links ∧ p ∈ extracted) →
      exportFinish true links extracted files = .done (some m)) ∧
    exportFinish false links extracted files = .done none := by
  have hany : (links.any (fun p => extracted.contains p) = true) ↔
      ∃ p, p ∈ links ∧ p ∈ extracted := by
    rw [List.any_eq_true]
    constructor
    · rintro ⟨p, hp, hc⟩
      exact ⟨p, hp, List.elem_iff.mp hc⟩
    · rintro ⟨p, hp, hc⟩
      exact ⟨p, hp, List.elem_iff.mpr hc⟩
  refine ⟨?_, ?_, rfl⟩
  · constructor
    · intro hout
      by_contra hno
      have hfalse : links.any (fun p => extracted.contains p) = false := by
        rcases h : links.any (fun p => extracted.contains p) with _ | _
        · rfl
        · exact absurd (hany.mp h) hno
      rw [exportFinish, if_pos rfl, if_neg (by rw [hfalse]; simp), hred] at hout
      cases hout
    · intro hdup
      rw [exportFinish, if_pos rfl, if_pos (hany.mpr hdup)]
  · intro hno
    have hfalse : links.any (fun p => extracted.contains p) = false := by
      rcases h : links.any (fun p => extracted.contains p) with _ | _
      · rfl
      · exact absurd (hany.mp h) hno
    rw [exportFinish, if_pos rfl, if_neg (by rw [hfalse]; simp), hred]

theorem c6_witness :
    reduce_common_paths ["a/x"] ["a/x", "b"] ["b"] = some ["a"] ∧
    ((exportFinish true ["a/x"] ["b"] ["a/x", "b"] = .errorDuplicates ↔
      ∃ p, p ∈ ["a/x"] ∧ p ∈ ["b"]) ∧
    ((¬ ∃ p, p ∈ ["a/x"] ∧ p ∈ ["b"]) →
      exportFinish true ["a/x"] ["b"] ["a/x", "b"] = .done (some ["a"])) ∧
    exportFinish false ["a/x"] ["b"] ["a/x", "b"] = .done none) :=
  ⟨by decide, c6_export_duplicates_iff ["a/x"] ["b"] ["a/x", "b"] ["a"] (by decide)⟩

/-! ### WAD member classification (claim C9) -/

/-- C9 counterexample: the new archive's only member (path hash 1) has the
same content hash `42` as the previous archive's member (path hash 2), yet
it is classified changed — put in `wadfiles_to_extract`, not in
`previous_links` — because the comparison is keyed by path hash, not by
content hash alone. -/
theorem c9_counterexample :
    wadCompare [⟨"p1", 1, 42⟩] (prev_sha256 [⟨"p2", 2, 42⟩]) = ([], [⟨"p1", 1, 42⟩]) ∧
    (⟨"p2", 2, 42⟩ : WadFile).sha256 = (⟨"p1", 1, 42⟩ : WadFile).sha256 := by
  decide

/-- C9 (amended): a member of a modified WAD is classified unchanged
(appended to `previous_links`) iff the previous archive's `path_hash →
sha256` dict maps the member's *own path hash* to its content hash; every
other member — even one whose content hash appears in the previous archive
under a different path hash — is kept for extraction as changed. -/
theorem c9_wad_compare_by_path_hash (files prev : List WadFile) :
    (wadCompare files (prev_sha256 prev)).1 =
      (files.filter
        (fun wf => alistGet (prev_sha256 prev) wf.path_hash == some wf.sha256)).map
        (fun wf => wf.path) ∧
    (wadCompare files (prev_sha256 prev)).2 =
      files.filter
        (fun wf => !(alistGet (prev_sha256 prev) wf.path_hash == some wf.sha256)) := by
  induction files with
  | nil => exact ⟨rfl, rfl⟩
  | cons wf rest ih =>
      rw [wadCompare, List.filter_cons, List.filter_cons]
      by_cases h : alistGet (prev_sha256 prev) wf.path_hash = some wf.sha256
      · have hb : (alistGet (prev_sha256 prev) wf.path_hash == some wf.sha256) = true := by
          rw [beq_iff_eq]
          exact h
        rw [if_pos h, if_pos hb, if_neg (by rw [hb]; decide)]
        exact ⟨by rw [List.map_cons, ih.1], by rw [ih.2]⟩
      · have hb : (alistGet (prev_sha256 prev) wf.path_hash == some wf.sha256) = false := by
          rcases hx : (alistGet (prev_sha256 prev) wf.path_hash == some wf.sha256) with _ | _
          · rfl
          · exact absurd (beq_iff_eq.mp hx) h
        rw [if_neg h, if_neg (by rw [hb]; decide), if_pos (by rw [hb]; decide)]
        exact ⟨by rw [ih.1], by rw [ih.2]⟩

/-! ### `Exporter.__init__` discovery (claim C10) -/

/-- C10: `Exporter.__init__` raises `ValueError("no version directory
found")` exactly when no child of the output directory is a directory
whose name parses as a `Version`; unparseable or non-directory children
are skipped, and any successful parse prevents that error. -/
theorem c10_exporter_init_no_version (parse : String → Option Nat)
    (entries : List (String × Bool)) (catalog : List Nat) :
    exporterInit parse entries catalog = .error .noVersionDirectory ↔
      ∀ e ∈ entries, e.2 = true → parse e.1 = none := by
  rw [exporterInit]
  have hiff : ((entries.filter (fun e => e.2)).filterMap (fun e => parse e.1) = []) ↔
      ∀ e ∈ entries, e.2 = true → parse e.1 = none := by
    rw [List.filterMap_eq_nil_iff]
    constructor
    · intro h e he hdir
      exact h e (List.mem_filter.mpr ⟨he, hdir⟩)
    · intro h e he
      rcases List.mem_filter.mp he with ⟨hmem, hdir⟩
      exact h e hmem hdir
  by_cases hv : (entries.filter (fun e => e.2)).filterMap (fun e => parse e.1) = []
  · rw [if_pos hv]
    constructor
    · intro _
      exact hiff.mp hv
    · intro _
      rfl
  · rw [if_neg hv]
    rcases hcol : collectPatches catalog
        (((entries.filter (fun e => e.2)).filterMap (fun e => parse e.1)).eraseDups) with _ | ps
    · simp only [hcol]
      constructor
      · intro h
        cases h
      · intro h
        exact absurd (hiff.mpr h) hv
    · simp only [hcol]
      constructor
      · intro h
        cases h
      · intro h
        exact absurd (hiff.mpr h) hv

/-! ### Symlink creation order across patches (claim C8) -/

/-- C8 counterexample: with the catalog newest-first and both versions
discovered, the exporter chain is `[2, 1]` (newest first), but
`Exporter.create_symlinks` iterates `self.exporters[::-1]`, so the older
patch `1` is processed *before* the newer patch `2` — the opposite of the
claimed newest-first order. -/
theorem c8_counterexample :
    exporterInit (fun s => if s = "2" then some 2 else if s = "1" then some 1 else none)
        [("2", true), ("1", true)] [2, 1] = .ok [2, 1] ∧
    exporterSymlinkOrder [2, 1] = [1, 2] ∧
    (1 : Nat) < 2 ∧
    ¬ (exporterSymlinkOrder [2, 1]).indexOf 2 < (exporterSymlinkOrder [2, 1]).indexOf 1 := by
  refine ⟨rfl, rfl, by decide, by decide⟩

theorem collectPatches_sublist : ∀ (catalog vs ps : List Nat),
    collectPatches catalog vs = some ps → ps.Sublist catalog
  | [], _, _, h => by cases h
  | c :: cs, vs, ps, h => by
      rw [collectPatches] at h
      by_cases hc : c ∈ vs
      · rw [if_pos hc] at h
        by_cases he : vs.erase c = []
        · rw [if_pos he] at h
          cases h
          exact (List.nil_sublist cs).cons₂ c
        · rw [if_neg he] at h
          rcases hcol : collectPatches cs (vs.erase c) with _ | ps'
          · rw [hcol] at h
            cases h
          · rw [hcol] at h
            cases h
            exact (collectPatches_sublist cs (vs.erase c) ps' hcol).cons₂ c
      · rw [if_neg hc] at h
        exact (collectPatches_sublist cs vs ps h).cons c

/-- C8 (amended): the per-patch symlink passes run in *reverse* chain
order.  Since `Exporter.__init__` builds the chain as a subsequence of the
newest-first catalog, the processing order is oldest-first: strictly
ascending in version, so for any two patches in the chain the *older*
one's symlinks are created before the newer one's. -/
theorem c8_symlink_order_oldest_first (parse : String → Option Nat)
    (entries : List (String × Bool)) (catalog : List Nat) (chain : List Nat)
    (hsorted : catalog.Sorted (· > ·))
    (hok : exporterInit parse entries catalog = .ok chain) :
    exporterSymlinkOrder chain = chain.reverse ∧
    (exporterSymlinkOrder chain).Sorted (· < ·) := by
  refine ⟨rfl, ?_⟩
  rw [exporterInit] at hok
  by_cases hv : (entries.filter (fun e => e.2)).filterMap (fun e => parse e.1) = []
  · rw [if_pos hv] at hok
    cases hok
  · rw [if_neg hv] at hok
    rcases hcol : collectPatches catalog
        (((entries.filter (fun e => e.2)).filterMap (fun e => parse e.1)).eraseDups)
      with _ | ps
    · rw [hcol] at hok
      cases hok
    · rw [hcol] at hok
      cases hok
      have hsub := collectPatches_sublist _ _ _ hcol
      have hsorted' : chain.Sorted (· > ·) := List.Pairwise.sublist hsub hsorted
      rw [exporterSymlinkOrder]
      rw [List.Sorted, List.pairwise_reverse]
      exact hsorted'

theorem c8_witness :
    ([3, 2, 1] : List Nat).Sorted (· > ·) ∧
    exporterInit (fun s => if s = "3" then some 3 else if s = "1" then some 1 else none)
        [("3", true), ("1", true)] [3, 2, 1] = .ok [3, 1] ∧
    (exporterSymlinkOrder [3, 1] = ([3, 1] : List Nat).reverse ∧
      (exporterSymlinkOrder [3, 1]).Sorted (· < ·)) :=
  ⟨by decide, rfl,
   c8_symlink_order_oldest_first
     (fun s => if s = "3" then some 3 else if s = "1" then some 1 else none)
     [("3", true), ("1", true)] [3, 2, 1] [3, 1] (by decide) rfl⟩

/-! ### Relative-path resolution (for claim C7) -/

theorem commonLen_le_right : ∀ (p s : List String), commonLen p s ≤ s.length
  | a :: as, b :: bs => by
      rw [commonLen]
      by_cases h : a = b
      · rw [if_pos h, List.length_cons]
        exact Nat.succ_le_succ (commonLen_le_right as bs)
      · rw [if_neg h]
        exact Nat.zero_le _
  | [], s => by simp [commonLen]
  | _ :: _, [] => by simp [commonLen]

theorem commonLen_take : ∀ (p s : List String),
    p.take (commonLen p s) = s.take (commonLen p s)
  | a :: as, b :: bs => by
      rw [commonLen]
      by_cases h : a = b
      · rw [if_pos h]
        rw [List.take_succ_cons, List.take_succ_cons, commonLen_take as bs, h]
      · rw [if_neg h]
        rfl
  | [], s => by simp [commonLen]
  | a :: as, [] => by simp [commonLen]

theorem resolveRel_dotdot : ∀ (k : Nat) (base rest : List String),
    resolveRel base (List.replicate k ".." ++ rest) =
      resolveRel (base.take (base.length - k)) rest := by
  intro k
  induction k with
  | zero =>
      intro base rest
      rw [List.replicate_zero, List.nil_append, Nat.sub_zero, List.take_length]
  | succ k ih =>
      intro base rest
      rw [List.replicate_succ, List.cons_append, resolveRel, if_pos rfl, ih]
      congr 1
      rw [List.length_dropLast, List.dropLast_eq_take, List.take_take]
      congr 1
      omega

theorem resolveRel_no_dots : ∀ (rest base : List String), ".." ∉ rest →
    resolveRel base rest = base ++ rest
  | [], base, _ => by rw [resolveRel, List.append_nil]
  | s :: r, base, h => by
      have hs : s ≠ ".." := fun hc => h (hc ▸ List.mem_cons_self s r)
      rw [resolveRel, if_neg hs, resolveRel_no_dots r (base ++ [s]) (fun hc => h (List.mem_cons_of_mem s hc)),
        List.append_assoc]
      rfl

theorem resolveRel_pyRelpath (path start : List String) (h : ".." ∉ path) :
    resolveRel start (pyRelpathSegs path start) = path := by
  rw [pyRelpathSegs]
  rw [resolveRel_dotdot (start.length - commonLen path start) start (path.drop (commonLen path start))]
  have hle : commonLen path start ≤ start.length := commonLen_le_right path start
  rw [Nat.sub_sub_self hle]
  rw [resolveRel_no_dots _ _ (fun hc => h (List.drop_subset _ _ hc))]
  rw [← commonLen_take path start]
  exact List.take_append_drop _ path

/-! ### `PatchExporter.create_symlinks` behavior (claim C7) -/

theorem createGo_all_good : ∀ (links : List String) (dstO srcO : List String)
    (st : List String → DstState),
    (∀ l ∈ links, st (dstO ++ pySplit l) = .absent ∨ st (dstO ++ pySplit l) = .liveLink) →
    createSymlinksGo dstO srcO links st =
      .ok ((links.filter (fun l => st (dstO ++ pySplit l) == DstState.absent)).map
        (fun l => (dstO ++ pySplit l,
          pyRelpathSegs (srcO ++ pySplit l) (dstO ++ pySplit l).dropLast)))
  | [], _, _, _, _ => rfl
  | l :: rest, dstO, srcO, st, hgood => by
      have hrec := createGo_all_good rest dstO srcO st (fun l' h => hgood l' (by simp [h]))
      rcases hgood l (by simp) with h | h
      · simp [createSymlinksGo, h, hrec, List.filter_cons, pathExists]
      · simp [createSymlinksGo, h, hrec, List.filter_cons, pathExists, pathIslink]

theorem createGo_err_propagates : ∀ (pre : List String) (l : String) (post : List String)
    (dstO srcO : List String) (st : List String → DstState),
    (∀ l' ∈ pre, st (dstO ++ pySplit l') = .absent ∨ st (dstO ++ pySplit l') = .liveLink) →
    (st (dstO ++ pySplit l) = .plainFile →
      createSymlinksGo dstO srcO (pre ++ l :: post) st =
        .error (.targetExists (dstO ++ pySplit l))) ∧
    (st (dstO ++ pySplit l) = .brokenLink →
      createSymlinksGo dstO srcO (pre ++ l :: post) st =
        .error (.fileExists (dstO ++ pySplit l)))
  | [], l, post, dstO, srcO, st, _ => by
      constructor
      · intro h
        rw [List.nil_append]
        simp [createSymlinksGo, h, pathExists, pathIslink]
      · intro h
        rw [List.nil_append]
        simp [createSymlinksGo, h, pathExists, pathIslink]
  | p :: pre', l, post, dstO, srcO, st, hgood => by
      have hrec := createGo_err_propagates pre' l post dstO srcO st
        (fun l' h => hgood l' (by simp [h]))
      rw [List.cons_append]
      constructor
      · intro h
        rcases hgood p (by simp) with hp | hp
        · simp [createSymlinksGo, hp, pathExists, hrec.1 h]
        · simp [createSymlinksGo, hp, pathExists, pathIslink, hrec.1 h]
      · intro h
        rcases hgood p (by simp) with hp | hp
        · simp [createSymlinksGo, hp, pathExists, hrec.2 h]
        · simp [createSymlinksGo, hp, pathExists, pathIslink, hrec.2 h]

/-- C7 counterexample: a dangling symlink occupies the destination of the
single manifest entry.  The destination bears a filesystem entry that *is*
a link (`os.path.islink` is true), yet `create_symlinks` does not succeed
silently: `os.path.exists` follows the link and reports `False`, so the
code attempts `os.symlink` and fails with `FileExistsError`. -/
theorem c7_counterexample :
    create_symlinks ["out"] ["prev"] (some ["a"])
        (fun d => if d = ["out", "a"] then .brokenLink else .absent) =
      .error (.fileExists ["out", "a"]) ∧
    pathIslink ((fun d => if d = ["out", "a"] then DstState.brokenLink else .absent)
      ["out", "a"]) = true := by
  refine ⟨rfl, rfl⟩

/-- C7 (amended): `create_symlinks` is a no-op when the manifest is unset.
When every entry's destination is either absent or a link *whose target
exists*, the call succeeds: live-link destinations are skipped silently
(nothing deleted — the model emits only create actions) and absent
destinations get a relative link that resolves to the corresponding path
under the previous patch's directory.  A destination holding non-link
content makes the call fail with the `RuntimeError`; a destination holding
a dangling link makes `os.symlink` fail with `FileExistsError`. -/
theorem c7_create_symlinks_behavior (dstO srcO : List String) (links : List String)
    (st : List String → DstState)
    (hdd : ".." ∉ srcO) (hddl : ∀ l ∈ links, ".." ∉ pySplit l) :
    (create_symlinks dstO srcO none st = .ok []) ∧
    ((∀ l ∈ links, st (dstO ++ pySplit l) = .absent ∨ st (dstO ++ pySplit l) = .liveLink) →
      create_symlinks dstO srcO (some links) st =
        .ok ((links.filter (fun l => st (dstO ++ pySplit l) == DstState.absent)).map
          (fun l => (dstO ++ pySplit l,
            pyRelpathSegs (srcO ++ pySplit l) (dstO ++ pySplit l).dropLast)))) ∧
    (∀ l ∈ links,
      resolveRel (dstO ++ pySplit l).dropLast
        (pyRelpathSegs (srcO ++ pySplit l) (dstO ++ pySplit l).dropLast) =
        srcO ++ pySplit l) ∧
    (∀ pre l post, links = pre ++ l :: post →
      (∀ l' ∈ pre, st (dstO ++ pySplit l') = .absent ∨ st (dstO ++ pySplit l') = .liveLink) →
      (st (dstO ++ pySplit l) = .plainFile →
        create_symlinks dstO srcO (some links) st =
          .error (.targetExists (dstO ++ pySplit l))) ∧
      (st (dstO ++ pySplit l) = .brokenLink →
        create_symlinks dstO srcO (some links) st =
          .error (.fileExists (dstO ++ pySplit l)))) := by
  refine ⟨rfl, ?_, ?_, ?_⟩
  · intro hgood
    rw [create_symlinks]
    exact createGo_all_good links dstO srcO st hgood
  · intro l hl
    refine resolveRel_pyRelpath (srcO ++ pySplit l) _ ?_
    intro hc
    rcases List.mem_append.mp hc with h | h
    · exact hdd h
    · exact hddl l hl h
  · intro pre l post heq hgood
    rw [create_symlinks, heq]
    exact createGo_err_propagates pre l post dstO srcO st hgood

theorem c7_witness :
    (".." ∉ (["prev"] : List String)) ∧ (∀ l ∈ ["a/b", "c"], ".." ∉ pySplit l) ∧
    ((create_symlinks ["out"] ["prev"] none
        (fun d => if d = ["out", "c"] then DstState.liveLink else .absent) = .ok []) ∧
    ((∀ l ∈ ["a/b", "c"],
        (fun d => if d = ["out", "c"] then DstState.liveLink else .absent) (["out"] ++ pySplit l) = .absent ∨
        (fun d => if d = ["out", "c"] then DstState.liveLink else .absent) (["out"] ++ pySplit l) = .liveLink) →
      create_symlinks ["out"] ["prev"] (some ["a/b", "c"])
          (fun d => if d = ["out", "c"] then DstState.liveLink else .absent) =
        .ok (((["a/b", "c"] : List String).filter
            (fun l => (fun d => if d = ["out", "c"] then DstState.liveLink else .absent)
              (["out"] ++ pySplit l) == DstState.absent)).map
          (fun l => (["out"] ++ pySplit l,
            pyRelpathSegs (["prev"] ++ pySplit l) (["out"] ++ pySplit l).dropLast)))) ∧
    (∀ l ∈ ["a/b", "c"],
      resolveRel (["out"] ++ pySplit l).dropLast
        (pyRelpathSegs (["prev"] ++ pySplit l) (["out"] ++ pySplit l).dropLast) =
        ["prev"] ++ pySplit l) ∧
    (∀ pre l post, (["a/b", "c"] : List String) = pre ++ l :: post →
      (∀ l' ∈ pre,
        (fun d => if d = ["out", "c"] then DstState.liveLink else .absent) (["out"] ++ pySplit l') = .absent ∨
        (fun d => if d = ["out", "c"] then DstState.liveLink else .absent) (["out"] ++ pySplit l') = .liveLink) →
      ((fun d => if d = ["out", "c"] then DstState.liveLink else .absent) (["out"] ++ pySplit l) = .plainFile →
        create_symlinks ["out"] ["prev"] (some ["a/b", "c"])
            (fun d => if d = ["out", "c"] then DstState.liveLink else .absent) =
          .error (.targetExists (["out"] ++ pySplit l))) ∧
      ((fun d => if d = ["out", "c"] then DstState.liveLink else .absent) (["out"] ++ pySplit l) = .brokenLink →
        create_symlinks ["out"] ["prev"] (some ["a/b", "c"])
            (fun d => if d = ["out", "c"] then DstState.liveLink else .absent) =
          .error (.fileExists (["out"] ++ pySplit l))))) :=
  ⟨by decide, by decide,
   c7_create_symlinks_behavior ["out"] ["prev"] ["a/b", "c"]
     (fun d => if d = ["out", "c"] then DstState.liveLink else .absent)
     (by decide) (by decide)⟩

/-! ### Stale-file cleanup (claim C4) -/

theorem eraseDups_loop_mem {α} [BEq α] [LawfulBEq α] :
    ∀ (as bs : List α) (x : α), x ∈ List.eraseDups.loop as bs ↔ x ∈ bs ∨ x ∈ as
  | [], bs, x => by
      rw [List.eraseDups.loop]
      simp
  | a :: as, bs, x => by
      rw [List.eraseDups.loop]
      rcases h : List.elem a bs with _ | _
      · simp only [eraseDups_loop_mem as (a :: bs) x, List.mem_cons]
        constructor
        · rintro (h1 | h1)
          · rcases h1 with h1 | h1
            · exact Or.inr (Or.inl h1)
            · exact Or.inl h1
          · exact Or.inr (Or.inr h1)
        · rintro (h1 | h1 | h1)
          · exact Or.inl (Or.inr h1)
          · exact Or.inl (Or.inl h1)
          · exact Or.inr h1
      · have ha : a ∈ bs := List.elem_iff.mp h
        simp only [eraseDups_loop_mem as bs x, List.mem_cons]
        constructor
        · rintro (h1 | h1)
          · exact Or.inl h1
          · exact Or.inr (Or.inr h1)
        · rintro (h1 | h1 | h1)
          · exact Or.inl h1
          · exact Or.inl (h1 ▸ ha)
          · exact Or.inr h1

theorem mem_eraseDups' {α} [BEq α] [LawfulBEq α] (l : List α) (x : α) :
    x ∈ l.eraseDups ↔ x ∈ l := by
  rw [List.eraseDups, eraseDups_loop_mem]
  simp

theorem dirHasContent_iff (s : FsState) (d : List String) :
    dirHasContent s d = true ↔
      (∃ f ∈ s.files, strictBelow d f = true) ∨ (∃ e ∈ s.dirs, strictBelow d e = true) := by
  rw [dirHasContent, Bool.or_eq_true, List.any_eq_true, List.any_eq_true]

theorem chain_cons_iff (seg : String) (ups : List String) (e : List String) :
    (e ≠ [] ∧ ∃ t, (seg :: ups).reverse = e ++ t) ↔
      (e = (seg :: ups).reverse ∨ (e ≠ [] ∧ ∃ t, ups.reverse = e ++ t)) := by
  rw [List.reverse_cons]
  constructor
  · rintro ⟨hne, t, ht⟩
    rcases List.eq_nil_or_concat t with rfl | ⟨t', x, rfl⟩
    · rw [List.append_nil] at ht
      exact Or.inl ht.symm
    · rw [List.concat_eq_append, ← List.append_assoc] at ht
      rcases List.append_inj' ht.symm rfl with ⟨h1, h2⟩
      exact Or.inr ⟨hne, t', h1.symm⟩
  · rintro (rfl | ⟨hne, t, ht⟩)
    · exact ⟨by simp, [], by rw [List.append_nil]⟩
    · exact ⟨hne, t ++ [seg], by rw [ht, List.append_assoc]⟩

theorem removedirsRev_files : ∀ (up : List String) (s : FsState),
    (removedirsRev s up).files = s.files
  | [], _ => rfl
  | seg :: ups, s => by
      rw [removedirsRev]
      by_cases hc : (s.dirs.contains ((seg :: ups).reverse) &&
          !dirHasContent s ((seg :: ups).reverse)) = true
      · rw [if_pos hc]
        exact removedirsRev_files ups _
      · rw [if_neg hc]

theorem removedirsRev_dirs_sub : ∀ (up : List String) (s : FsState),
    ∀ e ∈ (removedirsRev s up).dirs, e ∈ s.dirs
  | [], _ => fun _ he => he
  | seg :: ups, s => by
      rw [removedirsRev]
      by_cases hc : (s.dirs.contains ((seg :: ups).reverse) &&
          !dirHasContent s ((seg :: ups).reverse)) = true
      · rw [if_pos hc]
        intro e he
        exact List.erase_subset _ _ (removedirsRev_dirs_sub ups _ e he)
      · rw [if_neg hc]
        intro e he
        exact he

theorem dirHasContent_false_mono (s1 s2 : FsState) (x : List String)
    (hf : ∀ f ∈ s2.files, f ∈ s1.files) (hd : ∀ e ∈ s2.dirs, e ∈ s1.dirs)
    (h : dirHasContent s1 x = false) : dirHasContent s2 x = false := by
  rcases hc : dirHasContent s2 x with _ | _
  · rfl
  · rcases (dirHasContent_iff s2 x).mp hc with ⟨f, hfm, hb⟩ | ⟨e, hem, hb⟩
    · have h2 : dirHasContent s1 x = true :=
        (dirHasContent_iff s1 x).mpr (Or.inl ⟨f, hf f hfm, hb⟩)
      rw [h] at h2
      exact absurd h2 (by decide)
    · have h2 : dirHasContent s1 x = true :=
        (dirHasContent_iff s1 x).mpr (Or.inr ⟨e, hd e hem, hb⟩)
      rw [h] at h2
      exact absurd h2 (by decide)

theorem removedirs_removed_empty : ∀ (up : List String) (s : FsState),
    ∀ x ∈ s.dirs, x ∉ (removedirsRev s up).dirs →
      dirHasContent (removedirsRev s up) x = false
  | [], s => by
      rw [removedirsRev]
      intro x hx hnx
      exact absurd hx hnx
  | seg :: ups, s => by
      rw [removedirsRev]
      by_cases hc : (s.dirs.contains ((seg :: ups).reverse) &&
          !dirHasContent s ((seg :: ups).reverse)) = true
      · rw [if_pos hc]
        rw [Bool.and_eq_true, Bool.not_eq_true'] at hc
        intro x hx hnx
        by_cases hx' : x ∈ s.dirs.erase ((seg :: ups).reverse)
        · exact removedirs_removed_empty ups _ x hx' hnx
        · have hxd : x = (seg :: ups).reverse := by
            by_contra hxx
            exact hx' ((List.mem_erase_of_ne hxx).mpr hx)
          subst hxd
          refine dirHasContent_false_mono s _ _ ?_ ?_ hc.2
          · intro f hfm
            rw [removedirsRev_files ups _] at hfm
            exact hfm
          · intro e hem
            exact List.erase_subset _ _ (removedirsRev_dirs_sub ups _ e hem)
      · rw [if_neg hc]
        intro x hx hnx
        exact absurd hx hnx

theorem foldl_removedirsTry_files : ∀ (ds : List (List String)) (s : FsState),
    (ds.foldl removedirsTry s).files = s.files
  | [], _ => rfl
  | d :: ds', s => by
      rw [List.foldl_cons, foldl_removedirsTry_files ds' _]
      exact removedirsRev_files d.reverse s

theorem foldl_removedirsTry_dirs_sub : ∀ (ds : List (List String)) (s : FsState),
    ∀ e ∈ (ds.foldl removedirsTry s).dirs, e ∈ s.dirs
  | [], _ => fun _ he => he
  | d :: ds', s => by
      rw [List.foldl_cons]
      intro e he
      exact removedirsRev_dirs_sub d.reverse s e (foldl_removedirsTry_dirs_sub ds' _ e he)

theorem removedirs_fold_removed_empty : ∀ (ds : List (List String)) (s : FsState),
    ∀ x ∈ s.dirs, x ∉ (ds.foldl removedirsTry s).dirs →
      dirHasContent (ds.foldl removedirsTry s) x = false
  | [], s => by
      intro x hx hnx
      exact absurd hx hnx
  | d :: ds', s => by
      rw [List.foldl_cons]
      intro x hx hnx
      by_cases hx' : x ∈ (removedirsTry s d).dirs
      · exact removedirs_fold_removed_empty ds' _ x hx' hnx
      · have h1 : dirHasContent (removedirsTry s d) x = false :=
          removedirs_removed_empty d.reverse s x hx hx'
        refine dirHasContent_false_mono (removedirsTry s d) _ x ?_ ?_ h1
        · intro f hf
          rw [foldl_removedirsTry_files ds' _] at hf
          exact hf
        · exact foldl_removedirsTry_dirs_sub ds' _

theorem removedirs_walk : ∀ (up : List String) (s : FsState) (D : List String → Prop),
    s.dirs.Nodup →
    (∀ e ∈ s.dirs, e.dropLast ≠ [] → e.dropLast ∈ s.dirs) →
    (up ≠ [] → up.reverse ∈ s.dirs) →
    (∀ e, D e → e ≠ []) →
    (∀ e ∈ s.dirs, D e → ¬(e ≠ [] ∧ ∃ t, up.reverse = e ++ t) → dirHasContent s e = true) →
    (removedirsRev s up).files = s.files ∧
    (∀ e ∈ (removedirsRev s up).dirs, e ∈ s.dirs) ∧
    (removedirsRev s up).dirs.Nodup ∧
    (∀ e ∈ (removedirsRev s up).dirs, e.dropLast ≠ [] →
      e.dropLast ∈ (removedirsRev s up).dirs) ∧
    (∀ x ∈ s.dirs, x ∉ (removedirsRev s up).dirs → x ≠ [] ∧ ∃ t, up.reverse = x ++ t) ∧
    (∀ e ∈ (removedirsRev s up).dirs,
      (D e ∨ (e ≠ [] ∧ ∃ t, up.reverse = e ++ t)) → dirHasContent (removedirsRev s up) e = true)
  | [], s, D, hnd, hpc, _, _, hGE => by
      rw [removedirsRev]
      refine ⟨rfl, fun e he => he, hnd, hpc, ?_, ?_⟩
      · intro x hx hnx
        exact absurd hx hnx
      · intro e he hD
        rcases hD with hD | ⟨hne, t, ht⟩
        · refine hGE e he hD ?_
          rintro ⟨hne, t, ht⟩
          exact hne (List.append_eq_nil.mp ht.symm).1
        · exact absurd (List.append_eq_nil.mp ht.symm).1 hne
  | seg :: ups, s, D, hnd, hpc, hentry, hDne, hGE => by
      rw [removedirsRev]
      have hd : (seg :: ups).reverse ∈ s.dirs := hentry (by simp)
      by_cases hc : (s.dirs.contains ((seg :: ups).reverse) &&
          !dirHasContent s ((seg :: ups).reverse)) = true
      · rw [if_pos hc]
        rw [Bool.and_eq_true, Bool.not_eq_true'] at hc
        have hemp : dirHasContent s ((seg :: ups).reverse) = false := hc.2
        have hdne : (seg :: ups).reverse ≠ [] := by simp
        -- the erased state
        have hnd' : (s.dirs.erase ((seg :: ups).reverse)).Nodup :=
          List.Nodup.erase _ hnd
        have hsub' : ∀ e, e ∈ s.dirs.erase ((seg :: ups).reverse) → e ∈ s.dirs :=
          fun e he => List.erase_subset _ _ he
        have hne_of_mem' : ∀ e, e ∈ s.dirs.erase ((seg :: ups).reverse) →
            e ≠ (seg :: ups).reverse := by
          intro e he
          exact ((List.Nodup.mem_erase_iff hnd).mp he).1
        have hnotbelow : ∀ e ∈ s.dirs, strictBelow ((seg :: ups).reverse) e = true → False := by
          intro e he hb
          have : dirHasContent s ((seg :: ups).reverse) = true :=
            (dirHasContent_iff s _).mpr (Or.inr ⟨e, he, hb⟩)
          rw [hemp] at this
          cases this
        have hpc' : ∀ e, e ∈ s.dirs.erase ((seg :: ups).reverse) → e.dropLast ≠ [] →
            e.dropLast ∈ s.dirs.erase ((seg :: ups).reverse) := by
          intro e he hdl
          have hes : e ∈ s.dirs := hsub' e he
          have hpar : e.dropLast ∈ s.dirs := hpc e hes hdl
          have hene : e ≠ [] := by
            intro hx
            rw [hx] at hdl
            exact hdl rfl
          refine (List.mem_erase_of_ne ?_).mpr hpar
          intro hpd
          refine hnotbelow e hes ?_
          rw [strictBelow_iff]
          refine ⟨[e.getLast hene], by simp, ?_⟩
          rw [← hpd]
          exact (List.dropLast_append_getLast hene).symm
        have hentry' : ups ≠ [] → ups.reverse ∈ s.dirs.erase ((seg :: ups).reverse) := by
          intro hups
          have h1 : ups.reverse = ((seg :: ups).reverse).dropLast := by
            rw [List.reverse_cons, List.dropLast_concat]
          have h2 : ups.reverse ∈ s.dirs := by
            rw [h1]
            refine hpc _ hd ?_
            rw [← h1]
            simpa using hups
          refine (List.mem_erase_of_ne ?_).mpr h2
          intro hx
          have := congrArg List.length hx
          rw [List.length_reverse, List.reverse_cons, List.length_append,
            List.length_reverse] at this
          simp at this
        have hGE' : ∀ e, e ∈ s.dirs.erase ((seg :: ups).reverse) → D e →
            ¬(e ≠ [] ∧ ∃ t, ups.reverse = e ++ t) →
            dirHasContent { s with dirs := s.dirs.erase ((seg :: ups).reverse) } e = true := by
          intro e he hDe hnch
          have hes : e ∈ s.dirs := hsub' e he
          have hed : e ≠ (seg :: ups).reverse := hne_of_mem' e he
          have hnch2 : ¬(e ≠ [] ∧ ∃ t, (seg :: ups).reverse = e ++ t) := by
            intro hch
            rcases (chain_cons_iff seg ups e).mp hch with h1 | h1
            · exact hed h1
            · exact hnch h1
          have hcont := (dirHasContent_iff s e).mp (hGE e hes hDe hnch2)
          rcases hcont with ⟨f, hf, hb⟩ | ⟨x, hx, hb⟩
          · exact (dirHasContent_iff _ e).mpr (Or.inl ⟨f, hf, hb⟩)
          · have hxd : x ≠ (seg :: ups).reverse := by
              intro hxe
              subst hxe
              rcases (strictBelow_iff e ((seg :: ups).reverse)).mp hb with ⟨t, htne, ht⟩
              have hch : e ≠ [] ∧ ∃ t', (seg :: ups).reverse = e ++ t' :=
                ⟨hDne e hDe, t, ht⟩
              rcases (chain_cons_iff seg ups e).mp hch with h1 | h1
              · exact hed h1
              · exact hnch h1
            exact (dirHasContent_iff _ e).mpr
              (Or.inr ⟨x, (List.mem_erase_of_ne hxd).mpr hx, hb⟩)
        rcases removedirs_walk ups { s with dirs := s.dirs.erase ((seg :: ups).reverse) } D
            hnd' hpc' hentry' hDne hGE' with ⟨hfiles, hsub, hnd2, hpc2, hrem, hgood⟩
        refine ⟨hfiles, ?_, hnd2, hpc2, ?_, ?_⟩
        · intro e he
          exact hsub' e (hsub e he)
        · intro x hx hnx
          by_cases hx' : x ∈ s.dirs.erase ((seg :: ups).reverse)
          · rcases hrem x hx' hnx with ⟨h1, t, ht⟩
            exact (chain_cons_iff seg ups x).mpr (Or.inr ⟨h1, t, ht⟩)
          · have hxd : x = (seg :: ups).reverse := by
              by_contra hxx
              exact hx' ((List.mem_erase_of_ne hxx).mpr hx)
            subst hxd
            exact (chain_cons_iff seg ups _).mpr (Or.inl rfl)
        · intro e he hD
          rcases hD with hD | hch
          · exact hgood e he (Or.inl hD)
          · rcases (chain_cons_iff seg ups e).mp hch with h1 | h1
            · rw [h1] at he
              have h2 := hsub _ he
              have h3 := (List.Nodup.mem_erase_iff hnd).mp h2
              exact absurd rfl h3.1
            · exact hgood e he (Or.inr h1)
      · rw [if_neg hc]
        have hcont : dirHasContent s ((seg :: ups).reverse) = true := by
          have h1 : s.dirs.contains ((seg :: ups).reverse) = true := List.elem_iff.mpr hd
          rcases h2 : dirHasContent s ((seg :: ups).reverse) with _ | _
          · rw [h1, h2] at hc
            simp at hc
          · rfl
        refine ⟨rfl, fun e he => he, hnd, hpc, ?_, ?_⟩
        · intro x hx hnx
          exact absurd hx hnx
        · intro e he hD
          rcases hD with hD | hch
          · by_cases hch2 : (e ≠ [] ∧ ∃ t, (seg :: ups).reverse = e ++ t)
            · rcases (chain_cons_iff seg ups e).mp hch2 with h1 | h1
              · exact h1 ▸ hcont
              · rcases h1 with ⟨hne, t, ht⟩
                refine (dirHasContent_iff s e).mpr (Or.inr ⟨_, hd, ?_⟩)
                rw [strictBelow_iff]
                exact ⟨t ++ [seg], by simp, by rw [List.reverse_cons, ht, List.append_assoc]⟩
            · exact hGE e he hD hch2
          · rcases (chain_cons_iff seg ups e).mp hch with h1 | h1
            · exact h1 ▸ hcont
            · rcases h1 with ⟨hne, t, ht⟩
              refine (dirHasContent_iff s e).mpr (Or.inr ⟨_, hd, ?_⟩)
              rw [strictBelow_iff]
              exact ⟨t ++ [seg], by simp, by rw [List.reverse_cons, ht, List.append_assoc]⟩

theorem removedirsTry_spec (d : List String) (s : FsState) (D : List String → Prop)
    (hnd : s.dirs.Nodup)
    (hpc : ∀ e ∈ s.dirs, e.dropLast ≠ [] → e.dropLast ∈ s.dirs)
    (hentry : d ≠ [] → d ∈ s.dirs ∨ D d)
    (hDne : ∀ e, D e → e ≠ [])
    (hDup : ∀ e, D e → ∀ e' t, e = e' ++ t → e' ≠ [] → D e')
    (hG : ∀ e ∈ s.dirs, D e → dirHasContent s e = true) :
    (removedirsTry s d).files = s.files ∧
    (∀ e ∈ (removedirsTry s d).dirs, e ∈ s.dirs) ∧
    (removedirsTry s d).dirs.Nodup ∧
    (∀ e ∈ (removedirsTry s d).dirs, e.dropLast ≠ [] →
      e.dropLast ∈ (removedirsTry s d).dirs) ∧
    (∀ x ∈ s.dirs, x ∉ (removedirsTry s d).dirs → x ≠ [] ∧ ∃ t, d = x ++ t) ∧
    (∀ e ∈ (removedirsTry s d).dirs,
      (D e ∨ (e ≠ [] ∧ ∃ t, d = e ++ t)) → dirHasContent (removedirsTry s d) e = true) := by
  by_cases hmem : d ∈ s.dirs
  · have hw := removedirs_walk d.reverse s D hnd hpc
      (fun _ => by rw [List.reverse_reverse]; exact hmem) hDne
      (fun e he hDe _ => hG e he hDe)
    rw [removedirsTry]
    simpa only [List.reverse_reverse] using hw
  · rcases hrev : d.reverse with _ | ⟨seg, ups⟩
    · have hdnil : d = [] := by
        have := congrArg List.reverse hrev
        rw [List.reverse_reverse] at this
        simpa using this
      subst hdnil
      rw [removedirsTry]
      rw [show ([] : List String).reverse = [] from rfl, removedirsRev]
      refine ⟨rfl, fun e he => he, hnd, hpc, ?_, ?_⟩
      · intro x hx hnx
        exact absurd hx hnx
      · intro e he hD
        rcases hD with hD | ⟨hne, t, ht⟩
        · exact hG e he hD
        · exact absurd (List.append_eq_nil.mp ht.symm).1 hne
    · have hdne : d ≠ [] := by
        intro hx
        rw [hx] at hrev
        cases hrev
      have hD : D d := (hentry hdne).resolve_left hmem
      have hdd : (seg :: ups).reverse = d := by
        have := congrArg List.reverse hrev
        rw [List.reverse_reverse] at this
        exact this.symm
      have hres : removedirsTry s d = s := by
        rw [removedirsTry, hrev, removedirsRev, hdd]
        rw [if_neg]
        intro hc
        rw [Bool.and_eq_true] at hc
        exact hmem (List.elem_iff.mp hc.1)
      rw [hres]
      refine ⟨rfl, fun e he => he, hnd, hpc, ?_, ?_⟩
      · intro x hx hnx
        exact absurd hx hnx
      · intro e he hDe
        rcases hDe with hDe | ⟨hne, t, ht⟩
        · exact hG e he hDe
        · rcases List.eq_nil_or_concat t with rfl | ⟨t', x, rfl⟩
          · rw [List.append_nil] at ht
            rw [← ht] at he
            exact absurd he hmem
          · refine hG e he (hDup d hD e (t' ++ [x]) (by rw [ht, List.concat_eq_append]) hne)

theorem removedirs_fold : ∀ (ds : List (List String)) (s : FsState) (D : List String → Prop),
    s.dirs.Nodup →
    (∀ e ∈ s.dirs, e.dropLast ≠ [] → e.dropLast ∈ s.dirs) →
    (∀ e, D e → e ≠ []) →
    (∀ e, D e → ∀ e' t, e = e' ++ t → e' ≠ [] → D e') →
    (∀ d ∈ ds, d = [] ∨ d ∈ s.dirs ∨ D d) →
    (∀ e ∈ s.dirs, D e → dirHasContent s e = true) →
    (ds.foldl removedirsTry s).files = s.files ∧
    (∀ e ∈ (ds.foldl removedirsTry s).dirs, e ∈ s.dirs) ∧
    (∀ e ∈ (ds.foldl removedirsTry s).dirs,
      (D e ∨ ∃ d ∈ ds, e ≠ [] ∧ ∃ t, d = e ++ t) →
      dirHasContent (ds.foldl removedirsTry s) e = true)
  | [], s, D, hnd, hpc, hDne, hDup, hmem, hG => by
      rw [List.foldl_nil]
      refine ⟨rfl, fun e he => he, ?_⟩
      intro e he hDe
      rcases hDe with hDe | ⟨d, hd, _⟩
      · exact hG e he hDe
      · cases hd
  | d :: ds', s, D, hnd, hpc, hDne, hDup, hmem, hG => by
      rw [List.foldl_cons]
      obtain ⟨hf1, hsub1, hnd1, hpc1, hrem1, hgood1⟩ :=
        removedirsTry_spec d s D hnd hpc
          (fun hdn => (hmem d (by simp)).resolve_left hdn) hDne hDup hG
      obtain ⟨hf2, hsub2, hgood2⟩ :=
        removedirs_fold ds' (removedirsTry s d)
          (fun e => D e ∨ (e ≠ [] ∧ ∃ t, d = e ++ t)) hnd1 hpc1
          (by
            rintro e (hD | ⟨hne, _⟩)
            · exact hDne e hD
            · exact hne)
          (by
            rintro e (hD | ⟨hne, t0, ht0⟩) e' t heq h'ne
            · exact Or.inl (hDup e hD e' t heq h'ne)
            · exact Or.inr ⟨h'ne, t ++ t0, by rw [ht0, heq, List.append_assoc]⟩)
          (by
            intro d' hd'
            rcases hmem d' (by simp [hd']) with h1 | h1 | h1
            · exact Or.inl h1
            · by_cases h2 : d' ∈ (removedirsTry s d).dirs
              · exact Or.inr (Or.inl h2)
              · exact Or.inr (Or.inr (Or.inr (hrem1 d' h1 h2)))
            · exact Or.inr (Or.inr (Or.inl h1)))
          hgood1
      refine ⟨hf2.trans hf1, fun e he => hsub1 e (hsub2 e he), ?_⟩
      intro e he hDor
      refine hgood2 e he ?_
      rcases hDor with hD | ⟨d', hd', hch⟩
      · exact Or.inl (Or.inl hD)
      · rcases List.mem_cons.mp hd' with rfl | hd'2
        · exact Or.inl (Or.inr hch)
        · exact Or.inr ⟨d', hd'2, hch⟩

/-- C4 counterexample: the file `a/x` belongs to the unchanged (linked)
set `previous_links = {a/x}` and is physically present before the run,
with nothing extracted; the claim says the cleanup pass must not delete
it, but the code deletes everything in `original - set(extracted_paths)`
without consulting the unchanged set, so `a/x` (and the then-empty
directory `a`) is removed. -/
theorem c4_counterexample :
    ["a", "x"] ∈ ([["a", "x"]] : List (List String)) ∧
    (removeExtraFiles [["a", "x"]] [] ⟨[["a", "x"]], [["a"]]⟩).files = [] ∧
    (removeExtraFiles [["a", "x"]] [] ⟨[["a", "x"]], [["a"]]⟩).dirs = [] := by
  refine ⟨by decide, by decide, by decide⟩

/-- C4 (amended): the cleanup pass of `PatchExporter.export` deletes
exactly the pre-run files outside the extracted set — including files of
the unchanged (linked) set, which are later recreated as symlinks — and
never touches files in the extracted set.  For directories: every
surviving directory lying on the ancestor chain of a deleted file's
directory is non-empty after the pass (so directories left empty by the
deletions are removed), and every removed directory contains no surviving
file or directory (no directory that still contains a file or
subdirectory is removed).  Hypotheses: directory entries are
duplicate-free, the parent of every non-top-level directory and file is
tracked as a directory, and every `original` file is present. -/
theorem c4_cleanup_spec (original extracted : List (List String)) (s : FsState)
    (hnd : s.dirs.Nodup)
    (hpc : ∀ e ∈ s.dirs, e.dropLast ≠ [] → e.dropLast ∈ s.dirs)
    (hfd : ∀ f ∈ s.files, f.dropLast ≠ [] → f.dropLast ∈ s.dirs)
    (horig : ∀ f ∈ original, f ∈ s.files) :
    (∀ f, f ∈ (removeExtraFiles original extracted s).files ↔
      f ∈ s.files ∧ ¬(f ∈ original ∧ f ∉ extracted)) ∧
    (∀ e ∈ (removeExtraFiles original extracted s).dirs, e ∈ s.dirs) ∧
    (∀ e ∈ (removeExtraFiles original extracted s).dirs, ∀ f ∈ original, f ∉ extracted →
      (e ≠ [] ∧ ∃ t, f.dropLast = e ++ t) →
      dirHasContent (removeExtraFiles original extracted s) e = true) ∧
    (∀ e ∈ s.dirs, e ∉ (removeExtraFiles original extracted s).dirs →
      dirHasContent (removeExtraFiles original extracted s) e = false) := by
  have htr : ∀ f, f ∈ original.filter (fun p => !extracted.contains p) ↔
      f ∈ original ∧ f ∉ extracted := by
    intro f
    rw [List.mem_filter]
    constructor
    · rintro ⟨h1, h2⟩
      rw [Bool.not_eq_true'] at h2
      refine ⟨h1, fun hc => ?_⟩
      have hh : extracted.contains f = true := List.elem_iff.mpr hc
      rw [h2] at hh
      exact absurd hh (by decide)
    · rintro ⟨h1, h2⟩
      refine ⟨h1, ?_⟩
      rw [Bool.not_eq_true']
      rcases hx : extracted.contains f with _ | _
      · rfl
      · exact absurd (List.elem_iff.mp hx) h2
  obtain ⟨hff, hsub, hgood⟩ :=
    removedirs_fold
      (((original.filter (fun p => !extracted.contains p)).map
        (fun p => p.dropLast)).eraseDups)
      { s with files := (s.files.filter
          (fun f => !(original.filter (fun p => !extracted.contains p)).contains f)) }
      (fun _ => False) hnd hpc (fun e h => absurd h not_false)
      (fun e h => absurd h not_false)
      (by
        intro d hd
        rw [mem_eraseDups'] at hd
        rcases List.mem_map.mp hd with ⟨f, hf, rfl⟩
        rcases (htr f).mp hf with ⟨h1, _⟩
        by_cases hdl : f.dropLast = []
        · exact Or.inl hdl
        · exact Or.inr (Or.inl (hfd f (horig f h1) hdl)))
      (fun e _ h => absurd h not_false)
  rw [removeExtraFiles]
  refine ⟨?_, hsub, ?_, ?_⟩
  · intro f
    rw [hff, List.mem_filter]
    constructor
    · rintro ⟨h1, h2⟩
      rw [Bool.not_eq_true'] at h2
      refine ⟨h1, fun hc => ?_⟩
      have hh : (original.filter (fun p => !extracted.contains p)).contains f = true :=
        List.elem_iff.mpr ((htr f).mpr hc)
      rw [h2] at hh
      exact absurd hh (by decide)
    · rintro ⟨h1, h2⟩
      refine ⟨h1, ?_⟩
      rw [Bool.not_eq_true']
      rcases hx : (original.filter (fun p => !extracted.contains p)).contains f with _ | _
      · rfl
      · exact absurd ((htr f).mp (List.elem_iff.mp hx)) h2
  · intro e he f hf hnx hch
    refine hgood e he (Or.inr ⟨f.dropLast, ?_, hch⟩)
    rw [mem_eraseDups']
    exact List.mem_map.mpr ⟨f, (htr f).mpr ⟨hf, hnx⟩, rfl⟩
  · intro e he hne
    exact removedirs_fold_removed_empty _ _ e he hne

theorem c4_witness :
    (([["a"], ["b"]] : List (List String)).Nodup ∧
      (∀ e ∈ ([["a"], ["b"]] : List (List String)), e.dropLast ≠ [] →
        e.dropLast ∈ ([["a"], ["b"]] : List (List String))) ∧
      (∀ f ∈ ([["a", "x"], ["b", "y"]] : List (List String)), f.dropLast ≠ [] →
        f.dropLast ∈ ([["a"], ["b"]] : List (List String))) ∧
      (∀ f ∈ ([["a", "x"]] : List (List String)),
        f ∈ ([["a", "x"], ["b", "y"]] : List (List String)))) ∧
    ((∀ f, f ∈ (removeExtraFiles [["a", "x"]] []
        ⟨[["a", "x"], ["b", "y"]], [["a"], ["b"]]⟩).files ↔
      f ∈ ([["a", "x"], ["b", "y"]] : List (List String)) ∧
        ¬(f ∈ ([["a", "x"]] : List (List String)) ∧ f ∉ ([] : List (List String)))) ∧
    (∀ e ∈ (removeExtraFiles [["a", "x"]] []
        ⟨[["a", "x"], ["b", "y"]], [["a"], ["b"]]⟩).dirs,
      e ∈ ([["a"], ["b"]] : List (List String))) ∧
    (∀ e ∈ (removeExtraFiles [["a", "x"]] []
        ⟨[["a", "x"], ["b", "y"]], [["a"], ["b"]]⟩).dirs,
      ∀ f ∈ ([["a", "x"]] : List (List String)), f ∉ ([] : List (List String)) →
      (e ≠ [] ∧ ∃ t, f.dropLast = e ++ t) →
      dirHasContent (removeExtraFiles [["a", "x"]] []
        ⟨[["a", "x"], ["b", "y"]], [["a"], ["b"]]⟩) e = true) ∧
    (∀ e ∈ ([["a"], ["b"]] : List (List String)),
      e ∉ (removeExtraFiles [["a", "x"]] []
        ⟨[["a", "x"], ["b", "y"]], [["a"], ["b"]]⟩).dirs →
      dirHasContent (removeExtraFiles [["a", "x"]] []
        ⟨[["a", "x"], ["b", "y"]], [["a"], ["b"]]⟩) e = false)) :=
  ⟨⟨by decide, by decide, by decide, by decide⟩,
   c4_cleanup_spec [["a", "x"]] [] ⟨[["a", "x"], ["b", "y"]], [["a"], ["b"]]⟩
     (by decide) (by decide) (by decide) (by decide)⟩
